import Mathlib

/-!
Verification of the `pypeline/nodegraph.py` dependency-graph scheduler.

The embedding models the `NodeGraph` class: nodes are identified by natural
number indices into a list of `NodeInfo` records.  The acyclicity invariant of
the dependency graph (`dependencies ∪ subnodes` is a DAG) is embedded by
requiring every dependency/subnode index to be strictly smaller than the index
of the node holding it; any finite DAG can be indexed this way (a topological
numbering), so this loses no generality.  The tracked node set (the key set of
`self._reverse_dependencies`) is the full index range `0 .. size-1`.

Node states follow the Python class constants
`DONE, RUNNING, RUNABLE, QUEUED, OUTDATED, ERROR = range(6)` and are plain
naturals, so Python's `max` on states is `Nat.max`.

Recursive Python functions are embedded with an explicit fuel argument (the
recursion depth along the DAG is bounded by the number of nodes); lemmas show
the results are fuel-independent once the fuel exceeds the node index.
Python `dict`s holding per-node data are embedded as `Nat → Option _`
functions when only looked up and mutated pointwise, and as association lists
when the code iterates over their items (`intersections.items()`).
Operations that can raise `KeyError`/`ValueError` in Python return `Option`.
-/

/-- State of a node on the filesystem and its static attributes, i.e. the part
of the `Node` interface that `NodeGraph` consumes: `dependencies`, `subnodes`,
`is_done`, `is_outdated`, `input_files`, `output_files`, and whether the node
is a `MetaNode`.  `is_done`/`is_outdated` are snapshots of the (unchanging)
filesystem, per the "no filesystem change" hypothesis of the claims. -/
structure NodeInfo where
  is_meta : Bool := false
  is_done : Bool := false
  is_outdated : Bool := false
  dependencies : List Nat := []
  subnodes : List Nat := []
  input_files : List String := []
  output_files : List String := []
  deriving Inhabited, DecidableEq

/-- Union `node.subnodes | node.dependencies` used throughout `nodegraph.py`
(membership-wise; Python's set union is modelled by list append). -/
def NodeInfo.children (nd : NodeInfo) : List Nat :=
  nd.subnodes ++ nd.dependencies

/-- Topological well-formedness: every dependency/subnode index is smaller
than the node's own index (this is the embedding of acyclicity). -/
def acyclicOk (l : List NodeInfo) : Bool :=
  (List.range l.length).all fun i => ((l.getD i default).children).all (· < i)

/-- The dependency graph: the list of tracked nodes together with the
acyclicity invariant. -/
structure NodeGraph where
  nodes : List NodeInfo
  wf : acyclicOk nodes = true

/-- Number of tracked nodes. -/
def NodeGraph.size (g : NodeGraph) : Nat := g.nodes.length

/-- Attribute record of node `i` (a default record for out-of-range indices;
out-of-range indices are never tracked). -/
def NodeGraph.info (g : NodeGraph) (i : Nat) : NodeInfo := g.nodes.getD i default

/-- Dependencies-plus-subnodes of node `i`. -/
def NodeGraph.childrenOf (g : NodeGraph) (i : Nat) : List Nat := (g.info i).children

/-- State constants, `DONE, RUNNING, RUNABLE, QUEUED, OUTDATED, ERROR = range(6)`. -/
def NodeGraph.DONE : Nat := 0

/-- See `NodeGraph.DONE`. -/
def NodeGraph.RUNNING : Nat := 1

/-- See `NodeGraph.DONE`. -/
def NodeGraph.RUNABLE : Nat := 2

/-- See `NodeGraph.DONE`. -/
def NodeGraph.QUEUED : Nat := 3

/-- See `NodeGraph.DONE`. -/
def NodeGraph.OUTDATED : Nat := 4

/-- See `NodeGraph.DONE`. -/
def NodeGraph.ERROR : Nat := 5

namespace NodeGraph

theorem children_lt (g : NodeGraph) (i j : Nat) (h : j ∈ g.childrenOf i) : j < i := by
  by_cases hi : i < g.nodes.length
  · have hall := g.wf
    unfold acyclicOk at hall
    rw [List.all_eq_true] at hall
    have := hall i (by simpa using List.mem_range.mpr hi)
    rw [List.all_eq_true] at this
    simpa using this j h
  · have : g.nodes.getD i default = default := by
      apply List.getD_eq_default
      omega
    rw [childrenOf, info, this] at h
    simp [NodeInfo.children, default] at h

theorem children_out_of_range (g : NodeGraph) (i : Nat) (h : g.size ≤ i) :
    g.childrenOf i = [] := by
  have : g.nodes.getD i default = default := List.getD_eq_default _ _ h
  rw [childrenOf, info, this]
  rfl

/-- The per-node state map `self._states` (`Nat → Option Nat` embeds the
Python dict from nodes to state ints). -/
def StateMap := Nat → Option Nat

/-- Pointwise dict assignment `states[node] = state`. -/
def insertS (st : StateMap) (k v : Nat) : StateMap :=
  fun i => if i = k then some v else st i

/-- Pointwise dict removal `states.pop(node)` (the looked-up value is taken
separately). -/
def removeS (st : StateMap) (k : Nat) : StateMap :=
  fun i => if i = k then none else st i

/-- The empty state map (`self._states = {}` in `__init__`). -/
def emptyS : StateMap := fun _ => none

/-- The state-combination step at the end of `_update_node_state`, after
`state` has been set to the max over sub-node states: the `MetaNode` /
`is_done` / `is_outdated` case analysis, translated branch for branch. -/
def transition (g : NodeGraph) (i : Nat) (state : Nat) : Nat :=
  if (g.info i).is_meta then
    if state = RUNNING ∨ state = RUNABLE then QUEUED else state
  else if state = DONE then
    if ¬(g.info i).is_done ∨ (g.info i).is_outdated then RUNABLE else state
  else if state = RUNNING ∨ state = RUNABLE ∨ state = QUEUED then
    if (g.info i).is_done then OUTDATED else QUEUED
  else state

/-- `NodeGraph._update_node_state`, with explicit fuel and explicit threading
of the memoizing `self._states` dict: return a memoized state if present,
otherwise fold `max` over the recursively-updated children states starting
from `DONE`, apply the `transition` case analysis, and record the result. -/
def update_node_state (g : NodeGraph) : Nat → StateMap → Nat → StateMap × Nat
  | 0, st, _ => (st, DONE)
  | fuel + 1, st, i =>
    match st i with
    | some s => (st, s)
    | none =>
      let r := (g.childrenOf i).foldl
        (fun (p : StateMap × Nat) j =>
          let q := update_node_state g fuel p.1 j
          (q.1, Nat.max p.2 q.2))
        (st, DONE)
      (insertS r.1 i (transition g i r.2), transition g i r.2)

/-- Purely functional from-scratch recomputation of a node's state relative to
a pinned base map `base` (entries of `base` are taken as-is, everything else
is recomputed); fuel-indexed companion of `update_node_state`. -/
def pureStateF (g : NodeGraph) (base : StateMap) : Nat → Nat → Nat
  | 0, _ => DONE
  | fuel + 1, i =>
    match base i with
    | some s => s
    | none =>
      transition g i
        ((g.childrenOf i).foldl (fun a j => Nat.max a (pureStateF g base fuel j)) DONE)

/-- From-scratch state of node `i` relative to pinned base `base` (fuel `i+1`
always suffices because children have smaller indices). -/
def pureState (g : NodeGraph) (base : StateMap) (i : Nat) : Nat :=
  pureStateF g base (i + 1) i

/-- The max-over-children "upstream" value feeding `transition` at node `i`. -/
def upstreamOf (g : NodeGraph) (base : StateMap) (i : Nat) : Nat :=
  (g.childrenOf i).foldl (fun a j => Nat.max a (pureState g base j)) DONE

/-- The sticky-state filter at the start of `refresh_states`: keep exactly the
`ERROR` and `RUNNING` entries. -/
def stickyOf (st : StateMap) : StateMap :=
  fun i =>
    match st i with
    | some v => if v = ERROR ∨ v = RUNNING then some v else none
    | none => none

/-- `NodeGraph.refresh_states`: drop non-sticky states, then run
`_update_node_state` on every tracked node. -/
def refresh_states (g : NodeGraph) (st : StateMap) : StateMap :=
  (List.range g.size).foldl (fun acc i => (update_node_state g g.size acc i).1)
    (stickyOf st)

/-- `self._states[node]` lookup, `NodeGraph.get_node_state`. -/
def get_node_state (st : StateMap) (i : Nat) : Option Nat := st i

/-- Fuel-indexed transitive dependency membership: `reachesF g fuel i t` holds
when `t` is among `i`'s dependencies/subnodes taken transitively.  This is the
membership test of the sets built by `NodeGraph._collect_dependencies`
(`dependencies[node] = subnodes ∪ ⋃ dependencies[subnode]`, memoization
dropped). -/
def reachesF (g : NodeGraph) : Nat → Nat → Nat → Bool
  | 0, _, _ => false
  | fuel + 1, i, t => (g.childrenOf i).any fun j => j = t || reachesF g fuel j t

/-- Transitive dependency membership (`t` is a direct or transitive
dependency/subnode of `i`). -/
def reaches (g : NodeGraph) (i t : Nat) : Bool := reachesF g (i + 1) i t

/-- Reverse-dependency set `self._reverse_dependencies[j]`: the tracked nodes
listing `j` among their dependencies/subnodes (built by
`_collect_reverse_dependencies`; tracked = all indices below `g.size`). -/
def reverse_dependencies_of (g : NodeGraph) (j : Nat) : List Nat :=
  (List.range g.size).filter fun i => j ∈ g.childrenOf i

/-- Membership in the reverse-reachable closure of `n`: the nodes that depend
on `n` directly or transitively. -/
def inClosure (g : NodeGraph) (n i : Nat) : Bool := reaches g i n

end NodeGraph

namespace NodeGraph

theorem foldl_max_congr (f f' : Nat → Nat) (l : List Nat) (a : Nat)
    (h : ∀ j ∈ l, f j = f' j) :
    l.foldl (fun acc j => Nat.max acc (f j)) a
      = l.foldl (fun acc j => Nat.max acc (f' j)) a := by
  induction l generalizing a with
  | nil => rfl
  | cons x xs ih =>
    simp only [List.foldl_cons]
    rw [h x (by simp)]
    exact ih _ fun j hj => h j (by simp [hj])

theorem le_foldl_max (f : Nat → Nat) (l : List Nat) (a : Nat) :
    a ≤ l.foldl (fun acc j => Nat.max acc (f j)) a := by
  induction l generalizing a with
  | nil => exact Nat.le_refl a
  | cons x xs ih =>
    exact Nat.le_trans (Nat.le_max_left a (f x)) (ih (Nat.max a (f x)))

theorem mem_le_foldl_max (f : Nat → Nat) (l : List Nat) (a : Nat) (j : Nat)
    (hj : j ∈ l) : f j ≤ l.foldl (fun acc j => Nat.max acc (f j)) a := by
  induction l generalizing a with
  | nil => cases hj
  | cons x xs ih =>
    rcases List.mem_cons.mp hj with h | h
    · subst h
      exact Nat.le_trans (Nat.le_max_right a (f j)) (le_foldl_max f xs _)
    · exact ih _ h

theorem foldl_max_le (f : Nat → Nat) (l : List Nat) (a b : Nat)
    (ha : a ≤ b) (h : ∀ j ∈ l, f j ≤ b) :
    l.foldl (fun acc j => Nat.max acc (f j)) a ≤ b := by
  induction l generalizing a with
  | nil => exact ha
  | cons x xs ih =>
    exact ih _ (Nat.max_le.mpr ⟨ha, h x (by simp)⟩) fun j hj => h j (by simp [hj])

theorem foldl_max_eq_or_mem (f : Nat → Nat) (l : List Nat) (a : Nat) :
    l.foldl (fun acc j => Nat.max acc (f j)) a = a
      ∨ ∃ j ∈ l, l.foldl (fun acc j => Nat.max acc (f j)) a = f j := by
  induction l generalizing a with
  | nil => exact Or.inl rfl
  | cons x xs ih =>
    simp only [List.foldl_cons]
    rcases ih (Nat.max a (f x)) with h | ⟨j, hj, hev⟩
    · rw [h]
      rcases Nat.le_total a (f x) with hax | hax
      · exact Or.inr ⟨x, by simp, Nat.max_eq_right hax⟩
      · exact Or.inl (Nat.max_eq_left hax)
    · exact Or.inr ⟨j, by simp [hj], hev⟩

theorem pureStateF_stable (g : NodeGraph) (base : StateMap) :
    ∀ (i f1 f2 : Nat), i < f1 → i < f2 →
      pureStateF g base f1 i = pureStateF g base f2 i := by
  intro i
  induction i using Nat.strong_induction_on with
  | _ i ih =>
    intro f1 f2 h1 h2
    match f1, f2, h1, h2 with
    | a + 1, b + 1, h1, h2 =>
      simp only [pureStateF]
      cases base i with
      | some s => rfl
      | none =>
        simp only []
        congr 1
        apply foldl_max_congr
        intro j hj
        have hji := children_lt g i j hj
        exact ih j hji a b (by omega) (by omega)

theorem pureState_eq_of_base (g : NodeGraph) (base : StateMap) (i : Nat) (s : Nat)
    (h : base i = some s) : pureState g base i = s := by
  simp [pureState, pureStateF, h]

theorem pureState_eq_of_none (g : NodeGraph) (base : StateMap) (i : Nat)
    (h : base i = none) :
    pureState g base i = transition g i (upstreamOf g base i) := by
  simp only [pureState, pureStateF, h, upstreamOf]
  congr 1
  apply foldl_max_congr
  intro j hj
  have hji := children_lt g i j hj
  exact pureStateF_stable g base j i (j + 1) hji (Nat.lt_succ_self j)

theorem list_any_congr {α : Type} (p q : α → Bool) (l : List α)
    (h : ∀ x ∈ l, p x = q x) : l.any p = l.any q := by
  induction l with
  | nil => rfl
  | cons x xs ih =>
    simp only [List.any_cons]
    rw [h x (by simp), ih fun y hy => h y (by simp [hy])]

theorem reachesF_stable (g : NodeGraph) :
    ∀ (i f1 f2 t : Nat), i < f1 → i < f2 →
      reachesF g f1 i t = reachesF g f2 i t := by
  intro i
  induction i using Nat.strong_induction_on with
  | _ i ih =>
    intro f1 f2 t h1 h2
    match f1, f2, h1, h2 with
    | a + 1, b + 1, h1, h2 =>
      simp only [reachesF]
      apply list_any_congr
      intro j hj
      have hji := children_lt g i j hj
      rw [ih j hji a b t (by omega) (by omega)]

theorem reaches_iff (g : NodeGraph) (i t : Nat) :
    reaches g i t = true ↔ ∃ j ∈ g.childrenOf i, j = t ∨ reaches g j t = true := by
  constructor
  · intro h
    simp only [reaches, reachesF, List.any_eq_true] at h
    rcases h with ⟨j, hj, hc⟩
    refine ⟨j, hj, ?_⟩
    rcases Bool.or_eq_true_iff.mp hc with hc | hc
    · exact Or.inl (by simpa using hc)
    · have hji := children_lt g i j hj
      exact Or.inr (by rw [reaches, reachesF_stable g j (j + 1) i t (Nat.lt_succ_self j) hji]; exact hc)
  · intro ⟨j, hj, hc⟩
    simp only [reaches, reachesF, List.any_eq_true]
    refine ⟨j, hj, ?_⟩
    have hji := children_lt g i j hj
    rcases hc with hc | hc
    · simp [hc]
    · apply Bool.or_eq_true_iff.mpr
      right
      rw [reachesF_stable g j i (j + 1) t hji (Nat.lt_succ_self j)]
      exact hc

theorem reaches_of_child (g : NodeGraph) (i j t : Nat) (hj : j ∈ g.childrenOf i)
    (h : j = t ∨ reaches g j t = true) : reaches g i t = true :=
  (reaches_iff g i t).mpr ⟨j, hj, h⟩

theorem reaches_lt (g : NodeGraph) (i t : Nat) (h : reaches g i t = true) : t < i := by
  induction i using Nat.strong_induction_on with
  | _ i ih =>
    rcases (reaches_iff g i t).mp h with ⟨j, hj, hc⟩
    have hji := children_lt g i j hj
    rcases hc with hc | hc
    · omega
    · have := ih j hji hc
      omega

theorem reaches_irrefl (g : NodeGraph) (i : Nat) : reaches g i i = false := by
  by_contra h
  have := reaches_lt g i i (by simpa using h)
  omega

theorem reaches_trans_child (g : NodeGraph) (i c t : Nat) (hc : c ∈ g.childrenOf i)
    (h : reaches g c t = true) : reaches g i t = true :=
  reaches_of_child g i c t hc (Or.inr h)

theorem pure_congr (g : NodeGraph) (b b' : StateMap) :
    ∀ i, (∀ j, (j = i ∨ reaches g i j = true) → b j = b' j) →
      pureState g b i = pureState g b' i := by
  intro i
  induction i using Nat.strong_induction_on with
  | _ i ih =>
    intro hagree
    have hbi : b i = b' i := hagree i (Or.inl rfl)
    cases hb : b' i with
    | some s =>
      rw [pureState_eq_of_base g b i s (hbi.trans hb), pureState_eq_of_base g b' i s hb]
    | none =>
      rw [pureState_eq_of_none g b i (hbi.trans hb), pureState_eq_of_none g b' i hb]
      congr 1
      apply foldl_max_congr
      intro j hj
      have hji := children_lt g i j hj
      apply ih j hji
      intro k hk
      apply hagree k
      right
      rcases hk with hk | hk
      · exact reaches_of_child g i j k hj (Or.inl hk.symm)
      · exact reaches_trans_child g i j k hj hk

theorem pure_extend (g : NodeGraph) (b b' : StateMap)
    (hsub : ∀ j v, b j = some v → b' j = some v)
    (hcons : ∀ j v, b' j = some v → pureState g b j = v) :
    ∀ i, pureState g b' i = pureState g b i := by
  intro i
  induction i using Nat.strong_induction_on with
  | _ i ih =>
    cases hb : b' i with
    | some s =>
      rw [pureState_eq_of_base g b' i s hb]
      exact (hcons i s hb).symm
    | none =>
      have hbn : b i = none := by
        cases hbi : b i with
        | some v => rw [hsub i v hbi] at hb; cases hb
        | none => rfl
      rw [pureState_eq_of_none g b' i hb, pureState_eq_of_none g b i hbn]
      congr 1
      apply foldl_max_congr
      intro j hj
      exact ih j (children_lt g i j hj)

end NodeGraph

namespace NodeGraph

/-- Coherence of a memo map `st` with a pinned base `base`: every base entry
is present, and every entry agrees with the from-scratch recomputation. -/
def Coherent (g : NodeGraph) (base st : StateMap) : Prop :=
  (∀ j v, base j = some v → st j = some v)
    ∧ (∀ j v, st j = some v → v = pureState g base j)

theorem update_spec (g : NodeGraph) (base : StateMap) :
    ∀ fuel i st, i < fuel → Coherent g base st →
      (update_node_state g fuel st i).2 = pureState g base i
      ∧ (update_node_state g fuel st i).1 i = some (pureState g base i)
      ∧ Coherent g base (update_node_state g fuel st i).1
      ∧ ∀ k, (update_node_state g fuel st i).1 k = st k
          ∨ (st k = none ∧ k ≤ i
              ∧ (update_node_state g fuel st i).1 k = some (pureState g base k)) := by
  intro fuel
  induction fuel with
  | zero => intro i st h; omega
  | succ f ih =>
    have fold_spec : ∀ (l : List Nat) (st : StateMap) (acc : Nat),
        (∀ j ∈ l, j < f) → Coherent g base st →
        (l.foldl (fun (p : StateMap × Nat) j =>
            let q := update_node_state g f p.1 j
            (q.1, Nat.max p.2 q.2)) (st, acc)).2
          = l.foldl (fun a j => Nat.max a (pureState g base j)) acc
        ∧ Coherent g base (l.foldl (fun (p : StateMap × Nat) j =>
            let q := update_node_state g f p.1 j
            (q.1, Nat.max p.2 q.2)) (st, acc)).1
        ∧ ∀ k, (l.foldl (fun (p : StateMap × Nat) j =>
            let q := update_node_state g f p.1 j
            (q.1, Nat.max p.2 q.2)) (st, acc)).1 k = st k
          ∨ (st k = none ∧ (∃ j ∈ l, k ≤ j)
              ∧ (l.foldl (fun (p : StateMap × Nat) j =>
                  let q := update_node_state g f p.1 j
                  (q.1, Nat.max p.2 q.2)) (st, acc)).1 k
                = some (pureState g base k)) := by
      intro l
      induction l with
      | nil =>
        intro st acc _ hco
        exact ⟨rfl, hco, fun k => Or.inl rfl⟩
      | cons x xs ihl =>
        intro st acc hl hco
        have hx : x < f := hl x (by simp)
        obtain ⟨hv, hset, hcoh1, hframe1⟩ := ih x st hx hco
        simp only [List.foldl_cons]
        obtain ⟨hv2, hcoh2, hframe2⟩ :=
          ihl (update_node_state g f st x).1 (Nat.max acc (update_node_state g f st x).2)
            (fun j hj => hl j (by simp [hj])) hcoh1
        refine ⟨?_, hcoh2, ?_⟩
        · rw [hv2, hv]
        · intro k
          rcases hframe2 k with h2 | ⟨hn2, ⟨j, hj, hkj⟩, hval2⟩
          · rcases hframe1 k with h1 | ⟨hn1, hki, hval1⟩
            · exact Or.inl (h2.trans h1)
            · exact Or.inr ⟨hn1, ⟨x, by simp, hki⟩, h2.trans hval1⟩
          · rcases hframe1 k with h1 | ⟨hn1, hki, hval1⟩
            · exact Or.inr ⟨h1 ▸ hn2, ⟨j, by simp [hj], hkj⟩, hval2⟩
            · exact Or.inr ⟨hn1, ⟨x, by simp, hki⟩, hval2⟩
    intro i st hi hco
    cases hsti : st i with
    | some s =>
      have hs : s = pureState g base i := hco.2 i s hsti
      have hred : update_node_state g (f + 1) st i = (st, s) := by
        simp only [update_node_state, hsti]
      rw [hred]
      exact ⟨hs, by simp [hsti, hs], hco, fun k => Or.inl rfl⟩
    | none =>
      have hbn : base i = none := by
        cases hb : base i with
        | some v => rw [hco.1 i v hb] at hsti; cases hsti
        | none => rfl
      have hchild : ∀ j ∈ g.childrenOf i, j < f := by
        intro j hj
        have := children_lt g i j hj
        omega
      obtain ⟨hv, hcoh, hframe⟩ := fold_spec (g.childrenOf i) st DONE hchild hco
      have hup : (((g.childrenOf i)).foldl (fun (p : StateMap × Nat) j =>
            let q := update_node_state g f p.1 j
            (q.1, Nat.max p.2 q.2)) (st, DONE)).2 = upstreamOf g base i := hv
      have hpure : pureState g base i = transition g i (upstreamOf g base i) :=
        pureState_eq_of_none g base i hbn
      simp only [update_node_state, hsti]
      refine ⟨?_, ?_, ?_, ?_⟩
      · rw [hup, hpure]
      · simp [insertS, hup, hpure]
      · constructor
        · intro j v hj
          by_cases hji : j = i
          · subst hji
            rw [hj] at hbn
            cases hbn
          · simp only [insertS, if_neg hji]
            exact hcoh.1 j v hj
        · intro j v hj
          by_cases hji : j = i
          · subst hji
            simp only [insertS, if_pos rfl] at hj
            cases hj
            rw [hup, hpure]
          · simp only [insertS, if_neg hji] at hj
            exact hcoh.2 j v hj
      · intro k
        by_cases hki : k = i
        · subst hki
          exact Or.inr ⟨hsti, Nat.le_refl k, by simp [insertS, hup, hpure]⟩
        · simp only [insertS, if_neg hki]
          rcases hframe k with h1 | ⟨hn, ⟨j, hj, hkj⟩, hval⟩
          · exact Or.inl h1
          · have := children_lt g i j hj
            exact Or.inr ⟨hn, by omega, hval⟩

theorem refresh_fold_spec (g : NodeGraph) (base : StateMap) :
    ∀ (l : List Nat) (st : StateMap), (∀ j ∈ l, j < g.size) → Coherent g base st →
      Coherent g base (l.foldl (fun acc i => (update_node_state g g.size acc i).1) st)
      ∧ (∀ i ∈ l, (l.foldl (fun acc i => (update_node_state g g.size acc i).1) st) i
          = some (pureState g base i))
      ∧ ∀ k, (l.foldl (fun acc i => (update_node_state g g.size acc i).1) st) k = st k
          ∨ (st k = none ∧ k < g.size
              ∧ (l.foldl (fun acc i => (update_node_state g g.size acc i).1) st) k
                = some (pureState g base k)) := by
  intro l
  induction l with
  | nil => exact fun st _ hco => ⟨hco, by simp, fun k => Or.inl rfl⟩
  | cons x xs ihl =>
    intro st hl hco
    have hx : x < g.size := hl x (by simp)
    obtain ⟨hv, hset, hcoh1, hframe1⟩ := update_spec g base g.size x st hx hco
    simp only [List.foldl_cons]
    obtain ⟨hcoh2, hmem2, hframe2⟩ :=
      ihl (update_node_state g g.size st x).1 (fun j hj => hl j (by simp [hj])) hcoh1
    refine ⟨hcoh2, ?_, ?_⟩
    · intro i hi
      rcases List.mem_cons.mp hi with h | h
      · subst h
        rcases hframe2 i with h2 | ⟨hn2, _, hval2⟩
        · rw [h2, hset]
        · rw [hset] at hn2
          cases hn2
      · exact hmem2 i h
    · intro k
      rcases hframe2 k with h2 | ⟨hn2, hk2, hval2⟩
      · rcases hframe1 k with h1 | ⟨hn1, hki, hval1⟩
        · exact Or.inl (h2.trans h1)
        · exact Or.inr ⟨hn1, by omega, h2.trans hval1⟩
      · rcases hframe1 k with h1 | ⟨hn1, hki, hval1⟩
        · exact Or.inr ⟨h1 ▸ hn2, hk2, hval2⟩
        · exact Or.inr ⟨hn1, hk2, hval2⟩

theorem sticky_coherent (g : NodeGraph) (st : StateMap) :
    Coherent g (stickyOf st) (stickyOf st) :=
  ⟨fun _ _ h => h, fun j v h => (pureState_eq_of_base g (stickyOf st) j v h).symm⟩

theorem refresh_spec (g : NodeGraph) (st : StateMap) :
    (∀ i, i < g.size → refresh_states g st i = some (pureState g (stickyOf st) i))
    ∧ ∀ i, g.size ≤ i → refresh_states g st i = stickyOf st i := by
  obtain ⟨_, hmem, hframe⟩ :=
    refresh_fold_spec g (stickyOf st) (List.range g.size) (stickyOf st)
      (fun j hj => List.mem_range.mp hj) (sticky_coherent g st)
  constructor
  · intro i hi
    exact hmem i (List.mem_range.mpr hi)
  · intro i hi
    rcases hframe i with h | ⟨_, hlt, _⟩
    · exact h
    · omega

end NodeGraph

namespace NodeGraph

theorem stickyOf_elim (st : StateMap) (j v : Nat) (h : stickyOf st j = some v) :
    st j = some v ∧ (v = ERROR ∨ v = RUNNING) := by
  cases hst : st j with
  | none =>
    simp only [stickyOf, hst] at h
    exact Option.noConfusion h
  | some w =>
    simp only [stickyOf, hst] at h
    by_cases hw : w = ERROR ∨ w = RUNNING
    · simp only [if_pos hw] at h
      cases h
      exact ⟨rfl, hw⟩
    · simp only [if_neg hw] at h
      exact Option.noConfusion h

theorem stickyOf_intro (st : StateMap) (j v : Nat) (h : st j = some v)
    (hv : v = ERROR ∨ v = RUNNING) : stickyOf st j = some v := by
  simp only [stickyOf, h, if_pos hv]

theorem stickyOf_congr_at (st st' : StateMap) (j : Nat) (h : st j = st' j) :
    stickyOf st j = stickyOf st' j := by
  simp only [stickyOf, h]

theorem stickyOf_idem (st : StateMap) (j : Nat) :
    stickyOf (stickyOf st) j = stickyOf st j := by
  cases hs : stickyOf st j with
  | none =>
    show (match stickyOf st j with
      | some v => if v = ERROR ∨ v = RUNNING then some v else none
      | none => none) = none
    rw [hs]
  | some v =>
    obtain ⟨_, hv⟩ := stickyOf_elim st j v hs
    exact stickyOf_intro (stickyOf st) j v hs hv

/-- C7: `refresh_states` is idempotent: with no filesystem change (the
`is_done`/`is_outdated` snapshots in the graph are fixed) and no intervening
`set_node_state`, a second consecutive `refresh_states()` yields the
identical state mapping. -/
theorem claim_C7_refresh_idempotent (g : NodeGraph) (st : StateMap) :
    refresh_states g (refresh_states g st) = refresh_states g st := by
  funext i
  obtain ⟨hin, hout⟩ := refresh_spec g st
  obtain ⟨hin2, hout2⟩ := refresh_spec g (refresh_states g st)
  have hpure : ∀ k, pureState g (stickyOf (refresh_states g st)) k
      = pureState g (stickyOf st) k := by
    apply pure_extend
    · intro j v hj
      obtain ⟨hstj, hv⟩ := stickyOf_elim st j v hj
      by_cases hjs : j < g.size
      · refine stickyOf_intro _ j v ?_ hv
        rw [hin j hjs, pureState_eq_of_base g _ j v hj]
      · refine stickyOf_intro _ j v ?_ hv
        rw [hout j (by omega)]
        exact hj
    · intro j v hj
      obtain ⟨hRj, hv⟩ := stickyOf_elim (refresh_states g st) j v hj
      by_cases hjs : j < g.size
      · rw [hin j hjs] at hRj
        cases hRj
        rfl
      · rw [hout j (by omega)] at hRj
        exact pureState_eq_of_base g _ j v hRj
  by_cases hi : i < g.size
  · rw [hin2 i hi, hin i hi, hpure i]
  · rw [hout2 i (by omega), hout i (by omega)]
    rw [stickyOf_congr_at (refresh_states g st) (stickyOf st) i (hout i (by omega))]
    exact stickyOf_idem st i

/-- The three-node chain of Scenario 1: `B` depends on `A`, `C` depends on
`B`, nothing is done or outdated on disk (indices: A = 0, B = 1, C = 2). -/
def chainABC : NodeGraph where
  nodes := [{}, { dependencies := [0] }, { dependencies := [1] }]
  wf := by decide

/-- C6: on the chain A → B → C with `A.is_done() = False`, the initial
refresh (from the empty state map of `__init__`) computes A = RUNABLE,
B = QUEUED, C = QUEUED. -/
theorem claim_C6_chain_initial_refresh :
    refresh_states chainABC emptyS 0 = some RUNABLE
    ∧ refresh_states chainABC emptyS 1 = some QUEUED
    ∧ refresh_states chainABC emptyS 2 = some QUEUED := by decide

/-- The precedence rank the spec asserts for max-based propagation:
Done < {Runnable, Outdated} < Queued < Running < Error. -/
def specRank (s : Nat) : Nat :=
  if s = DONE then 0
  else if s = RUNABLE ∨ s = OUTDATED then 1
  else if s = QUEUED then 2
  else if s = RUNNING then 3
  else 4

/-- A graph where one node sees a RUNNING child and an OUTDATED child:
node 1 depends on node 0 and has stale output; node 2 depends on both. -/
def gMixed : NodeGraph where
  nodes := [{}, { is_done := true, dependencies := [0] }, { dependencies := [0, 1] }]
  wf := by decide

/-- The base map pinning node 0 of `gMixed` to RUNNING (a sticky state). -/
def baseMixed : StateMap := fun i => if i = 0 then some RUNNING else none

/-- C3 counterexample: the upstream value used by `_update_node_state` is NOT
the maximum under the spec's precedence order Done < {Runnable, Outdated} <
Queued < Running < Error.  In `gMixed`, node 2's children have states RUNNING
(node 0) and OUTDATED (node 1); the code computes upstream = OUTDATED
(numeric `max` over `range(6)` constants), although RUNNING ranks strictly
higher than OUTDATED in the spec's order. -/
theorem claim_C3_counterexample :
    pureState gMixed baseMixed 0 = RUNNING
    ∧ pureState gMixed baseMixed 1 = OUTDATED
    ∧ (0 : Nat) ∈ NodeGraph.childrenOf gMixed 2
    ∧ upstreamOf gMixed baseMixed 2 = OUTDATED
    ∧ specRank OUTDATED < specRank RUNNING := by decide

/-- C3 (amended): the upstream value used by state propagation is the maximum
of the children states under the code's numeric precedence order
DONE(0) < RUNNING(1) < RUNABLE(2) < QUEUED(3) < OUTDATED(4) < ERROR(5):
it bounds every child state from above, and it is either DONE (the fold's
start value) or attained by some child; in particular an ERROR child always
dominates, since ERROR is the numeric maximum of the six states. -/
theorem claim_C3_upstream_numeric_max (g : NodeGraph) (base : StateMap) (i : Nat) :
    (∀ j ∈ g.childrenOf i, pureState g base j ≤ upstreamOf g base i)
    ∧ (upstreamOf g base i = DONE
        ∨ ∃ j ∈ g.childrenOf i, upstreamOf g base i = pureState g base j)
    ∧ ((∀ j ∈ g.childrenOf i, pureState g base j ≤ ERROR)
        → upstreamOf g base i ≤ ERROR) := by
  refine ⟨?_, ?_, ?_⟩
  · intro j hj
    exact mem_le_foldl_max (pureState g base) (g.childrenOf i) DONE j hj
  · exact foldl_max_eq_or_mem (pureState g base) (g.childrenOf i) DONE
  · intro hb
    exact foldl_max_le (pureState g base) (g.childrenOf i) DONE ERROR (by decide) hb

theorem transition_ne_done_runnable (g : NodeGraph) (i up : Nat) (h : 1 ≤ up) :
    transition g i up ≠ DONE ∧ transition g i up ≠ RUNABLE := by
  unfold transition DONE RUNNING RUNABLE QUEUED OUTDATED
  split_ifs <;> omega

theorem error_blocks (g : NodeGraph) (base : StateMap)
    (hbase : ∀ j v, base j = some v → v = ERROR ∨ v = RUNNING) (t : Nat)
    (ht : base t = some ERROR) :
    ∀ i, reaches g i t = true →
      pureState g base i ≠ DONE ∧ pureState g base i ≠ RUNABLE := by
  intro i
  induction i using Nat.strong_induction_on with
  | _ i ih =>
    intro hit
    cases hb : base i with
    | some v =>
      rw [pureState_eq_of_base g base i v hb]
      rcases hbase i v hb with h | h <;> simp [h, ERROR, RUNNING, DONE, RUNABLE]
    | none =>
      rw [pureState_eq_of_none g base i hb]
      have hup : 1 ≤ upstreamOf g base i := by
        rcases (reaches_iff g i t).mp hit with ⟨c, hc, hct⟩
        have hle : pureState g base c ≤ upstreamOf g base i :=
          mem_le_foldl_max (pureState g base) (g.childrenOf i) DONE c hc
        rcases hct with hct | hct
        · subst hct
          rw [pureState_eq_of_base g base c ERROR ht] at hle
          unfold ERROR at hle
          omega
        · obtain ⟨h0, h2⟩ := ih c (children_lt g i c hc) hct
          have : 1 ≤ pureState g base c := by
            unfold DONE at h0
            omega
          omega
      exact transition_ne_done_runnable g i _ hup

theorem refresh_keeps_error (g : NodeGraph) (st : StateMap) (t : Nat)
    (ht : st t = some ERROR) : refresh_states g st t = some ERROR := by
  obtain ⟨hin, hout⟩ := refresh_spec g st
  have hsticky : stickyOf st t = some ERROR := stickyOf_intro st t ERROR ht (Or.inl rfl)
  by_cases hts : t < g.size
  · rw [hin t hts, pureState_eq_of_base g _ t ERROR hsticky]
  · rw [hout t (by omega)]
    exact hsticky

theorem refresh_not_runnable_above_error (g : NodeGraph) (st : StateMap) (A t : Nat)
    (ht : st t = some ERROR) (hAt : reaches g A t = true) :
    refresh_states g st A ≠ some RUNABLE := by
  obtain ⟨hin, hout⟩ := refresh_spec g st
  by_cases hAs : A < g.size
  · rw [hin A hAs]
    have := error_blocks g (stickyOf st)
      (fun j v hj => (stickyOf_elim st j v hj).2) t
      (stickyOf_intro st t ERROR ht (Or.inl rfl)) A hAt
    intro hcontra
    exact this.2 (Option.some_injective _ hcontra)
  · rw [hout A (by omega)]
    intro hcontra
    obtain ⟨_, hv⟩ := stickyOf_elim st A RUNABLE hcontra
    simp [ERROR, RUNNING, RUNABLE] at hv

/-- Iterated `refresh_states` calls. -/
def iterRefresh (g : NodeGraph) (st : StateMap) : Nat → StateMap
  | 0 => st
  | k + 1 => refresh_states g (iterRefresh g st k)

/-- C4: if node B's stored state is ERROR and node A depends on B directly or
transitively (via dependencies or subnodes), then after any positive number
of `refresh_states` calls B is still ERROR (Error survives a refresh) and A's
computed state is never RUNABLE. -/
theorem claim_C4_error_never_runnable (g : NodeGraph) (st : StateMap) (A B : Nat)
    (hB : st B = some ERROR) (hAB : reaches g A B = true) :
    ∀ k : Nat, iterRefresh g st (k + 1) B = some ERROR
      ∧ iterRefresh g st (k + 1) A ≠ some RUNABLE := by
  intro k
  induction k with
  | zero =>
    exact ⟨refresh_keeps_error g st B hB,
      refresh_not_runnable_above_error g st A B hB hAB⟩
  | succ m ihm =>
    exact ⟨refresh_keeps_error g _ B ihm.1,
      refresh_not_runnable_above_error g _ A B ihm.1 hAB⟩

/-- A state map for `chainABC` with node 0 in ERROR. -/
def stErrChain : StateMap := fun i =>
  if i = 0 then some ERROR else if i = 1 then some QUEUED else
  if i = 2 then some QUEUED else none

/-- Witness for C4 at a concrete input: in `chainABC` with node 0 in ERROR,
node 1 (which depends on node 0) is not RUNABLE after a refresh, and node 0
stays ERROR. -/
theorem claim_C4_witness :
    stErrChain 0 = some ERROR
    ∧ reaches chainABC 1 0 = true
    ∧ iterRefresh chainABC stErrChain 1 0 = some ERROR
    ∧ iterRefresh chainABC stErrChain 1 1 ≠ some RUNABLE := by
  refine ⟨rfl, by decide, ?_⟩
  have := claim_C4_error_never_runnable chainABC stErrChain 1 0 rfl (by decide) 0
  exact this

end NodeGraph

namespace NodeGraph

/-- Keys of a counts association list (a Python dict from nodes to ints,
iterated by `items()`, hence kept as a list). -/
def keysC (c : List (Nat × Nat)) : List Nat := c.map Prod.fst

/-- Dict lookup in a counts association list. -/
def lookupC (c : List (Nat × Nat)) (k : Nat) : Option Nat :=
  (c.find? fun p => p.1 == k).map Prod.snd

/-- Count value with default 0 (only meaningful when the key is present). -/
def valC (c : List (Nat × Nat)) (k : Nat) : Nat := (lookupC c k).getD 0

/-- Pointwise arithmetic update of the entry at key `k`. -/
def adjustC (c : List (Nat × Nat)) (k : Nat) (f : Nat → Nat) : List (Nat × Nat) :=
  c.map fun p => if p.1 = k then (p.1, f p.2) else p

/-- `counts[node] += 1`. -/
def bumpC (c : List (Nat × Nat)) (k : Nat) : List (Nat × Nat) := adjustC c k (· + 1)

/-- `NodeGraph._calculate_intersections.count_nodes`, fuel-indexed: walk the
reverse-dependency edges depth-first; bump the count of an already-visited
node, otherwise record it with count 1 and expand it recursively. -/
def count_nodes (g : NodeGraph) : Nat → Nat → List (Nat × Nat) → List (Nat × Nat)
  | 0, _, c => c
  | fuel + 1, v, c =>
    (reverse_dependencies_of g v).foldl
      (fun c m =>
        match lookupC c m with
        | some _ => bumpC c m
        | none => count_nodes g fuel m ((m, 1) :: c))
      c

/-- `counts[dependency] -= 1`, failing (Python `KeyError`) when the key is
absent.  Counts are naturals; the invariant proofs show the value is positive
whenever the code decrements, so truncated subtraction is exact. -/
def decC (c : List (Nat × Nat)) (k : Nat) : Option (List (Nat × Nat)) :=
  if (lookupC c k).isSome then some (adjustC c k (· - 1)) else none

/-- Sequential decrements over a list of keys. -/
def decAllC (c : List (Nat × Nat)) : List Nat → Option (List (Nat × Nat))
  | [] => some c
  | k :: ks => (decC c k).bind fun c' => decAllC c' ks

/-- The entry `self._intersections[node]` of `_calculate_intersections`:
depth-first visit counts from `node`, then one decrement per direct reverse
dependency of `node`. -/
def calculate_intersections (g : NodeGraph) (node : Nat) : Option (List (Nat × Nat)) :=
  decAllC (count_nodes g g.size node []) (reverse_dependencies_of g node)

theorem keysC_cons (p : Nat × Nat) (c : List (Nat × Nat)) :
    keysC (p :: c) = p.1 :: keysC c := rfl

theorem lookupC_cons (a b : Nat) (c : List (Nat × Nat)) (k : Nat) :
    lookupC ((a, b) :: c) k = if a = k then some b else lookupC c k := by
  unfold lookupC
  by_cases h : a = k
  · rw [List.find?_cons_of_pos _ (by simpa using h), if_pos h]
    rfl
  · rw [List.find?_cons_of_neg _ (by simpa using h), if_neg h]

theorem lookupC_isSome_iff (c : List (Nat × Nat)) (k : Nat) :
    (lookupC c k).isSome = true ↔ k ∈ keysC c := by
  induction c with
  | nil => simp [lookupC, keysC]
  | cons p c ih =>
    rw [show p = (p.1, p.2) from rfl, lookupC_cons, keysC_cons]
    by_cases h : p.1 = k
    · simp [h]
    · rw [if_neg h]
      simp only [List.mem_cons]
      constructor
      · intro hh
        exact Or.inr (ih.mp hh)
      · intro hh
        rcases hh with hh | hh
        · exact absurd hh.symm h
        · exact ih.mpr hh

theorem lookupC_none_iff (c : List (Nat × Nat)) (k : Nat) :
    lookupC c k = none ↔ k ∉ keysC c := by
  rw [← lookupC_isSome_iff]
  cases lookupC c k <;> simp

theorem keysC_adjust (c : List (Nat × Nat)) (k : Nat) (f : Nat → Nat) :
    keysC (adjustC c k f) = keysC c := by
  induction c with
  | nil => rfl
  | cons p c ih =>
    unfold adjustC at ih ⊢
    simp only [List.map_cons, keysC_cons]
    by_cases h : p.1 = k
    · rw [if_pos h]
      exact congrArg (fun l => p.1 :: l) ih
    · rw [if_neg h]
      exact congrArg (fun l => p.1 :: l) ih

theorem lookupC_adjust_self (c : List (Nat × Nat)) (k : Nat) (f : Nat → Nat) (v : Nat)
    (h : lookupC c k = some v) : lookupC (adjustC c k f) k = some (f v) := by
  induction c with
  | nil => cases h
  | cons p c ih =>
    obtain ⟨a, b⟩ := p
    rw [lookupC_cons] at h
    unfold adjustC
    simp only [List.map_cons]
    by_cases hp : a = k
    · rw [if_pos hp] at h
      cases h
      rw [if_pos hp, lookupC_cons, if_pos hp]
    · rw [if_neg hp] at h
      rw [if_neg hp, lookupC_cons, if_neg hp]
      exact ih h

theorem lookupC_adjust_other (c : List (Nat × Nat)) (k m : Nat) (f : Nat → Nat)
    (h : m ≠ k) : lookupC (adjustC c k f) m = lookupC c m := by
  induction c with
  | nil => rfl
  | cons p c ih =>
    obtain ⟨a, b⟩ := p
    unfold adjustC
    simp only [List.map_cons]
    by_cases hp : a = k
    · have ham : ¬ a = m := by omega
      rw [if_pos hp, lookupC_cons, lookupC_cons, if_neg ham, if_neg ham]
      exact ih
    · rw [if_neg hp, lookupC_cons, lookupC_cons]
      by_cases hm : a = m
      · rw [if_pos hm, if_pos hm]
      · rw [if_neg hm, if_neg hm]
        exact ih

end NodeGraph

namespace NodeGraph

theorem mem_revdeps_iff (g : NodeGraph) (j u : Nat) :
    u ∈ reverse_dependencies_of g j ↔ u < g.size ∧ j ∈ g.childrenOf u := by
  unfold reverse_dependencies_of
  rw [List.mem_filter]
  simp [List.mem_range]

theorem revdeps_gt (g : NodeGraph) (j u : Nat) (h : u ∈ reverse_dependencies_of g j) :
    j < u :=
  children_lt g u j ((mem_revdeps_iff g j u).mp h).2

theorem revdeps_lt_size (g : NodeGraph) (j u : Nat)
    (h : u ∈ reverse_dependencies_of g j) : u < g.size :=
  ((mem_revdeps_iff g j u).mp h).1

theorem revdeps_nodup (g : NodeGraph) (j : Nat) :
    (reverse_dependencies_of g j).Nodup :=
  (List.nodup_range g.size).filter _

/-- Reverse-reachability from `x` through the reverse-dependency edges,
avoiding (never touching) the nodes of `D`; `Avoid g D x u` means `u` is
reached from `x` by a (possibly empty) reverse path whose nodes, including
`x` and `u`, all lie outside `D`.  This is the set of nodes the depth-first
walk of `count_nodes` newly visits when expanding `x` against a visited set
`D`. -/
inductive Avoid (g : NodeGraph) (D : List Nat) (x : Nat) : Nat → Prop where
  | refl (hx : x ∉ D) : Avoid g D x x
  | step (m u : Nat) (h : Avoid g D x m) (hu : u ∈ reverse_dependencies_of g m)
      (hnd : u ∉ D) : Avoid g D x u

theorem avoid_start_not_mem (g : NodeGraph) (D : List Nat) (x u : Nat)
    (h : Avoid g D x u) : x ∉ D := by
  induction h with
  | refl hx => exact hx
  | step m u h hu hnd ih => exact ih

theorem avoid_end_not_mem (g : NodeGraph) (D : List Nat) (x u : Nat)
    (h : Avoid g D x u) : u ∉ D := by
  cases h with
  | refl hx => exact hx
  | step m u h hu hnd => exact hnd

theorem avoid_le (g : NodeGraph) (D : List Nat) (x u : Nat)
    (h : Avoid g D x u) : x ≤ u := by
  induction h with
  | refl hx => exact Nat.le_refl x
  | step m u h hu hnd ih =>
    have := revdeps_gt g m u hu
    omega

theorem avoid_lt_size (g : NodeGraph) (D : List Nat) (x u : Nat)
    (h : Avoid g D x u) (hxs : x < g.size) : u < g.size := by
  cases h with
  | refl hx => exact hxs
  | step m u h hu hnd => exact revdeps_lt_size g m u hu

theorem avoid_mono (g : NodeGraph) (D D' : List Nat) (x u : Nat)
    (hsub : ∀ k, k ∈ D → k ∈ D') (h : Avoid g D' x u) : Avoid g D x u := by
  induction h with
  | refl hx => exact Avoid.refl (fun hc => hx (hsub x hc))
  | step m u h hu hnd ih => exact Avoid.step m u ih hu (fun hc => hnd (hsub u hc))

theorem avoid_expand (g : NodeGraph) (D : List Nat) (y : Nat) (hy : y ∉ D) :
    ∀ u, Avoid g D y u ↔
      (u = y ∨ ∃ z ∈ reverse_dependencies_of g y, Avoid g (y :: D) z u) := by
  intro u
  constructor
  · intro h
    induction h with
    | refl hx => exact Or.inl rfl
    | step m u h hu hnd ih =>
      rcases ih with he | ⟨z, hz, hav⟩
      · refine Or.inr ⟨u, he ▸ hu, Avoid.refl ?_⟩
        have hgt := revdeps_gt g m u hu
        intro hc
        rcases List.mem_cons.mp hc with hc | hc
        · omega
        · exact hnd hc
      · refine Or.inr ⟨z, hz, Avoid.step m u hav hu ?_⟩
        have hzy : y < z := revdeps_gt g y z hz
        have hzm : z ≤ m := avoid_le g (y :: D) z m hav
        have hmu : m < u := revdeps_gt g m u hu
        intro hc
        rcases List.mem_cons.mp hc with hc | hc
        · omega
        · exact hnd hc
  · intro h
    rcases h with he | ⟨z, hz, hav⟩
    · cases he
      exact Avoid.refl hy
    · induction hav with
      | refl hx =>
        exact Avoid.step y z (Avoid.refl hy) hz
          fun hc => hx (List.mem_cons.mpr (Or.inr hc))
      | step m u h hu hnd ih =>
        exact Avoid.step m u ih hu
          fun hc => hnd (List.mem_cons.mpr (Or.inr hc))

theorem avoid_absorb (g : NodeGraph) (D keys2 : List Nat) (y : Nat)
    (hk : ∀ m, m ∈ keys2 ↔ m ∈ D ∨ Avoid g D y m) :
    ∀ y' u, Avoid g D y' u → u ∈ keys2 ∨ Avoid g keys2 y' u := by
  intro y' u h
  induction h with
  | refl hx =>
    by_cases hx2 : y' ∈ keys2
    · exact Or.inl hx2
    · exact Or.inr (Avoid.refl hx2)
  | step m u h hu hnd ih =>
    by_cases hu2 : u ∈ keys2
    · exact Or.inl hu2
    · rcases ih with hm | hm
      · rcases (hk m).mp hm with hmD | hmA
        · exact absurd hmD (avoid_end_not_mem g D y' m h)
        · exact absurd ((hk u).mpr (Or.inr (Avoid.step m u hmA hu hnd))) hu2
      · exact Or.inr (Avoid.step m u hm hu hu2)

theorem filter_length_eq_of_mem_iff (l₁ l₂ : List Nat) (p : Nat → Bool)
    (h₁ : l₁.Nodup) (h₂ : l₂.Nodup) (h : ∀ x, x ∈ l₁ ↔ x ∈ l₂) :
    (l₁.filter p).length = (l₂.filter p).length := by
  have hperm : List.Perm l₁ l₂ := (List.perm_ext_iff_of_nodup h₁ h₂).mpr h
  exact (hperm.filter p).length_eq

theorem filter_congr_mem (l : List Nat) (p q : Nat → Bool)
    (h : ∀ x ∈ l, p x = q x) : l.filter p = l.filter q := by
  induction l with
  | nil => rfl
  | cons x xs ih =>
    simp only [List.filter_cons]
    rw [h x (by simp), ih fun y hy => h y (by simp [hy])]

theorem length_filter_split (l : List Nat) (p q : Nat → Bool)
    (hd : ∀ x ∈ l, ¬(p x = true ∧ q x = true)) :
    (l.filter fun x => p x || q x).length = (l.filter p).length + (l.filter q).length := by
  induction l with
  | nil => rfl
  | cons x xs ih =>
    have ih2 := ih fun y hy => hd y (by simp [hy])
    simp only [List.filter_cons]
    cases hp : p x with
    | true =>
      have hq : q x = false := by
        cases hq2 : q x with
        | true => exact absurd ⟨hp, hq2⟩ (hd x (by simp))
        | false => rfl
      simp [hp, hq, ih2] <;> omega
    | false =>
      cases hq : q x with
      | true => simp [hp, hq, ih2] <;> omega
      | false => simp [hp, hq, ih2]

theorem length_filter_eq_single (l : List Nat) (y : Nat) (p : Nat → Bool)
    (hnd : l.Nodup) (hy : y ∈ l) :
    (l.filter fun u => decide (u = y) && p u).length = if p y then 1 else 0 := by
  induction l with
  | nil => cases hy
  | cons x xs ih =>
    rw [List.nodup_cons] at hnd
    rcases List.mem_cons.mp hy with he | hm
    · cases he
      have hrest : xs.filter (fun u => decide (u = y) && p u) = [] := by
        rw [List.filter_eq_nil_iff]
        intro u hu
        have : u ≠ y := fun hc => hnd.1 (hc ▸ hu)
        simp [this]
      simp only [List.filter_cons]
      cases hp : p y with
      | true => simp [hp, hrest]
      | false => simp [hp, hrest]
    · have hxy : x ≠ y := fun hc => hnd.1 (hc ▸ hm)
      simp only [List.filter_cons]
      have : (decide (x = y) && p x) = false := by simp [hxy]
      simp only [this, if_false]
      exact ih hnd.2 hm

end NodeGraph

namespace NodeGraph

theorem valC_of_not_mem (c : List (Nat × Nat)) (k : Nat) (h : k ∉ keysC c) :
    valC c k = 0 := by
  rw [valC, (lookupC_none_iff c k).mpr h]
  rfl

theorem mem_keysC_of_lookup (c : List (Nat × Nat)) (k w : Nat)
    (h : lookupC c k = some w) : k ∈ keysC c := by
  rw [← lookupC_isSome_iff, h]
  rfl

theorem length_filter_sub (l big : List Nat) (q : Nat → Bool)
    (hnd1 : l.Nodup) (hnd2 : big.Nodup) (hsub : ∀ x ∈ l, x ∈ big) :
    (big.filter fun u => decide (u ∈ l) && q u).length = (l.filter q).length := by
  have h1 : (big.filter fun u => decide (u ∈ l) && q u).Nodup := hnd2.filter _
  have h2 : (l.filter q).Nodup := hnd1.filter _
  have hperm : List.Perm (big.filter fun u => decide (u ∈ l) && q u) (l.filter q) := by
    rw [List.perm_ext_iff_of_nodup h1 h2]
    intro a
    simp only [List.mem_filter, Bool.and_eq_true, decide_eq_true_eq]
    constructor
    · rintro ⟨hb, hl, hq⟩
      exact ⟨hl, hq⟩
    · rintro ⟨hl, hq⟩
      exact ⟨hsub a hl, ⟨hl, hq⟩⟩
  exact hperm.length_eq

theorem lookupC_bump_self (c : List (Nat × Nat)) (k w : Nat)
    (h : lookupC c k = some w) : lookupC (bumpC c k) k = some (w + 1) :=
  lookupC_adjust_self c k (· + 1) w h

theorem lookupC_bump_other (c : List (Nat × Nat)) (k m : Nat) (h : m ≠ k) :
    lookupC (bumpC c k) m = lookupC c m :=
  lookupC_adjust_other c k m (· + 1) h

theorem filter_false_on (l : List Nat) (p : Nat → Bool) (h : ∀ x ∈ l, p x = false) :
    l.filter p = [] := by
  induction l with
  | nil => rfl
  | cons x xs ih =>
    rw [List.filter_cons]
    have hx := h x (by simp)
    simp only [hx, Bool.false_eq_true, if_false]
    exact ih fun y hy => h y (by simp [hy])

theorem count_spec (g : NodeGraph) :
    ∀ fuel v c, g.size ≤ fuel + v → v < g.size →
      (∀ k ∈ keysC c, k < g.size) → (keysC c).Nodup →
      (∀ u, u ∈ keysC (count_nodes g fuel v c)
          ↔ u ∈ keysC c ∨ ∃ y ∈ reverse_dependencies_of g v, Avoid g (keysC c) y u)
      ∧ (keysC (count_nodes g fuel v c)).Nodup
      ∧ (∀ k ∈ keysC (count_nodes g fuel v c), k < g.size)
      ∧ ∀ m, valC (count_nodes g fuel v c) m
          = valC c m + (if m ∈ reverse_dependencies_of g v then 1 else 0)
            + ((keysC (count_nodes g fuel v c)).filter
                fun u => decide (u ∉ keysC c) && decide (m ∈ reverse_dependencies_of g u)).length := by
  intro fuel
  induction fuel with
  | zero => intro v c hf hv; omega
  | succ f ih =>
    have fold_spec : ∀ (l : List Nat) (c : List (Nat × Nat)),
        l.Nodup → (∀ y ∈ l, y < g.size ∧ g.size ≤ f + y) →
        (∀ k ∈ keysC c, k < g.size) → (keysC c).Nodup →
        (∀ u, u ∈ keysC (l.foldl (fun c m =>
              match lookupC c m with
              | some _ => bumpC c m
              | none => count_nodes g f m ((m, 1) :: c)) c)
            ↔ u ∈ keysC c ∨ ∃ y ∈ l, Avoid g (keysC c) y u)
        ∧ (keysC (l.foldl (fun c m =>
              match lookupC c m with
              | some _ => bumpC c m
              | none => count_nodes g f m ((m, 1) :: c)) c)).Nodup
        ∧ (∀ k ∈ keysC (l.foldl (fun c m =>
              match lookupC c m with
              | some _ => bumpC c m
              | none => count_nodes g f m ((m, 1) :: c)) c), k < g.size)
        ∧ ∀ m, valC (l.foldl (fun c m =>
              match lookupC c m with
              | some _ => bumpC c m
              | none => count_nodes g f m ((m, 1) :: c)) c) m
            = valC c m + (if m ∈ l then 1 else 0)
              + ((keysC (l.foldl (fun c m =>
                  match lookupC c m with
                  | some _ => bumpC c m
                  | none => count_nodes g f m ((m, 1) :: c)) c)).filter
                  fun u => decide (u ∉ keysC c) && decide (m ∈ reverse_dependencies_of g u)).length := by
      intro l
      induction l with
      | nil =>
        intro c _ _ hb hnd
        refine ⟨by simp, hnd, hb, ?_⟩
        intro m
        have hfe : ((keysC c).filter
            fun u => decide (u ∉ keysC c) && decide (m ∈ reverse_dependencies_of g u)) = [] := by
          apply filter_false_on
          intro u hu
          simp [hu]
        simp only [List.foldl_nil]
        rw [hfe]
        simp
      | cons y rest ihl =>
        intro c hlnd hl hb hnd
        have hynd : y ∉ rest := (List.nodup_cons.mp hlnd).1
        have hrnd : rest.Nodup := (List.nodup_cons.mp hlnd).2
        have hy : y < g.size ∧ g.size ≤ f + y := hl y (by simp)
        cases hly : lookupC c y with
        | some w =>
          have hymem : y ∈ keysC c := mem_keysC_of_lookup c y w hly
          have hkb : keysC (bumpC c y) = keysC c := keysC_adjust c y _
          have hstep : ((y :: rest).foldl (fun c m =>
                match lookupC c m with
                | some _ => bumpC c m
                | none => count_nodes g f m ((m, 1) :: c)) c)
              = rest.foldl (fun c m =>
                match lookupC c m with
                | some _ => bumpC c m
                | none => count_nodes g f m ((m, 1) :: c)) (bumpC c y) := by
            simp only [List.foldl_cons, hly]
          rw [hstep]
          obtain ⟨R1, R2, R3, R4⟩ := ihl (bumpC c y)
            hrnd (fun z hz => hl z (by simp [hz])) (by rw [hkb]; exact hb) (by rw [hkb]; exact hnd)
          rw [hkb] at R1 R4
          refine ⟨?_, R2, R3, ?_⟩
          · intro u
            rw [R1 u]
            constructor
            · rintro (h | ⟨y', hy', hav⟩)
              · exact Or.inl h
              · exact Or.inr ⟨y', by simp [hy'], hav⟩
            · rintro (h | ⟨y', hy', hav⟩)
              · exact Or.inl h
              · rcases List.mem_cons.mp hy' with he | hm
                · exact absurd hymem (he ▸ avoid_start_not_mem g (keysC c) y' u hav)
                · exact Or.inr ⟨y', hm, hav⟩
          · intro m
            rw [R4 m]
            have hval : valC (bumpC c y) m
                = valC c m + (if m = y then 1 else 0) := by
              by_cases hm : m = y
              · subst hm
                rw [if_pos rfl, valC, valC, lookupC_bump_self c m w hly, hly]
                rfl
              · rw [if_neg hm, valC, valC, lookupC_bump_other c y m hm]
                rfl
            rw [hval]
            have hmem : (if m ∈ y :: rest then 1 else 0)
                = (if m = y then 1 else 0) + (if m ∈ rest then 1 else 0) := by
              by_cases hm : m = y
              · subst hm
                rw [if_pos (by simp), if_pos rfl, if_neg (fun hc => hynd hc)]
              · by_cases hm2 : m ∈ rest
                · rw [if_pos (by simp [hm2]), if_neg hm, if_pos hm2]
                · rw [if_neg (by simp [hm, hm2]), if_neg hm, if_neg hm2]
            rw [hmem]
            omega
        | none =>
          have hynmem : y ∉ keysC c := (lookupC_none_iff c y).mp hly
          have hkc1 : keysC ((y, 1) :: c) = y :: keysC c := rfl
          have hstep : ((y :: rest).foldl (fun c m =>
                match lookupC c m with
                | some _ => bumpC c m
                | none => count_nodes g f m ((m, 1) :: c)) c)
              = rest.foldl (fun c m =>
                match lookupC c m with
                | some _ => bumpC c m
                | none => count_nodes g f m ((m, 1) :: c)) (count_nodes g f y ((y, 1) :: c)) := by
            simp only [List.foldl_cons, hly]
          rw [hstep]
          obtain ⟨I1, I2, I3, I4⟩ := ih y ((y, 1) :: c) (by omega) hy.1
            (by rw [hkc1]
                intro k hk
                rcases List.mem_cons.mp hk with he | hm
                · omega
                · exact hb k hm)
            (by rw [hkc1]
                exact List.nodup_cons.mpr ⟨hynmem, hnd⟩)
          rw [hkc1] at I1 I4
          have HK : ∀ u, u ∈ keysC (count_nodes g f y ((y, 1) :: c))
              ↔ u ∈ keysC c ∨ Avoid g (keysC c) y u := by
            intro u
            rw [I1 u, avoid_expand g (keysC c) y hynmem u]
            constructor
            · rintro (h | h)
              · rcases List.mem_cons.mp h with he | hm
                · exact Or.inr (Or.inl he)
                · exact Or.inl hm
              · exact Or.inr (Or.inr h)
            · rintro (h | h)
              · exact Or.inl (by simp [h])
              · rcases h with h | h
                · exact Or.inl (by simp [h])
                · exact Or.inr h
          have hsubD : ∀ k, k ∈ keysC c → k ∈ keysC (count_nodes g f y ((y, 1) :: c)) :=
            fun k hk => (HK k).mpr (Or.inl hk)
          have hymem1 : y ∈ keysC (count_nodes g f y ((y, 1) :: c)) :=
            (HK y).mpr (Or.inr (Avoid.refl hynmem))
          obtain ⟨R1, R2, R3, R4⟩ := ihl (count_nodes g f y ((y, 1) :: c))
            hrnd (fun z hz => hl z (by simp [hz])) I3 I2
          refine ⟨?_, R2, R3, ?_⟩
          · intro u
            rw [R1 u]
            constructor
            · rintro (h | ⟨y', hy', hav⟩)
              · rcases (HK u).mp h with h | h
                · exact Or.inl h
                · exact Or.inr ⟨y, by simp, h⟩
              · refine Or.inr ⟨y', by simp [hy'], ?_⟩
                exact avoid_mono g (keysC c) _ y' u hsubD hav
            · rintro (h | ⟨y', hy', hav⟩)
              · exact Or.inl ((HK u).mpr (Or.inl h))
              · rcases List.mem_cons.mp hy' with he | hm
                · exact Or.inl ((HK u).mpr (Or.inr (he ▸ hav)))
                · rcases avoid_absorb g (keysC c) _ y HK y' u hav with h | h
                  · exact Or.inl h
                  · exact Or.inr ⟨y', hm, h⟩
          · intro m
            rw [R4 m, I4 m]
            have hval : valC ((y, 1) :: c) m = valC c m + (if m = y then 1 else 0) := by
              by_cases hm : m = y
              · subst hm
                rw [if_pos rfl, valC, valC, lookupC_cons, if_pos rfl,
                  (lookupC_none_iff c m).mpr hynmem]
                rfl
              · rw [if_neg hm, valC, valC, lookupC_cons, if_neg (fun hc => hm hc.symm)]
                rfl
            rw [hval]
            have hmem : (if m ∈ y :: rest then 1 else 0)
                = (if m = y then 1 else 0) + (if m ∈ rest then 1 else 0) := by
              by_cases hm : m = y
              · subst hm
                rw [if_pos (by simp), if_pos rfl, if_neg (fun hc => hynd hc)]
              · by_cases hm2 : m ∈ rest
                · rw [if_pos (by simp [hm2]), if_neg hm, if_pos hm2]
                · rw [if_neg (by simp [hm, hm2]), if_neg hm, if_neg hm2]
            rw [hmem]
            -- remaining: pure counting: split the final new-node filter
            have hsubR : ∀ k, k ∈ keysC (count_nodes g f y ((y, 1) :: c))
                → k ∈ keysC (rest.foldl (fun c m =>
                    match lookupC c m with
                    | some _ => bumpC c m
                    | none => count_nodes g f m ((m, 1) :: c)) (count_nodes g f y ((y, 1) :: c))) :=
              fun k hk => (R1 k).mpr (Or.inl hk)
            have hsplit1 : ((keysC (rest.foldl (fun c m =>
                    match lookupC c m with
                    | some _ => bumpC c m
                    | none => count_nodes g f m ((m, 1) :: c)) (count_nodes g f y ((y, 1) :: c)))).filter
                  fun u => decide (u ∉ keysC c) && decide (m ∈ reverse_dependencies_of g u)).length
                = ((keysC (rest.foldl (fun c m =>
                    match lookupC c m with
                    | some _ => bumpC c m
                    | none => count_nodes g f m ((m, 1) :: c)) (count_nodes g f y ((y, 1) :: c)))).filter
                  fun u => decide (u ∈ keysC (count_nodes g f y ((y, 1) :: c)))
                    && (decide (u ∉ keysC c) && decide (m ∈ reverse_dependencies_of g u))).length
                + ((keysC (rest.foldl (fun c m =>
                    match lookupC c m with
                    | some _ => bumpC c m
                    | none => count_nodes g f m ((m, 1) :: c)) (count_nodes g f y ((y, 1) :: c)))).filter
                  fun u => decide (u ∉ keysC (count_nodes g f y ((y, 1) :: c)))
                    && decide (m ∈ reverse_dependencies_of g u)).length := by
              rw [← length_filter_split]
              · apply congrArg
                apply filter_congr_mem
                intro u hu
                by_cases h1 : u ∈ keysC (count_nodes g f y ((y, 1) :: c))
                · by_cases h2 : u ∈ keysC c
                  · simp [h1, h2]
                  · simp [h1, h2]
                · have h2 : u ∉ keysC c := fun hc => h1 (hsubD u hc)
                  simp [h1, h2]
              · intro u hu hcon
                obtain ⟨hA, hB⟩ := hcon
                simp only [Bool.and_eq_true, decide_eq_true_eq] at hA hB
                exact absurd hA.1 hB.1
            have hsplit2 : ((keysC (rest.foldl (fun c m =>
                    match lookupC c m with
                    | some _ => bumpC c m
                    | none => count_nodes g f m ((m, 1) :: c)) (count_nodes g f y ((y, 1) :: c)))).filter
                  fun u => decide (u ∈ keysC (count_nodes g f y ((y, 1) :: c)))
                    && (decide (u ∉ keysC c) && decide (m ∈ reverse_dependencies_of g u))).length
                = ((keysC (count_nodes g f y ((y, 1) :: c))).filter
                  fun u => decide (u ∉ keysC c) && decide (m ∈ reverse_dependencies_of g u)).length :=
              length_filter_sub _ _ _ I2 R2 hsubR
            have hsplit3 : ((keysC (count_nodes g f y ((y, 1) :: c))).filter
                  fun u => decide (u ∉ keysC c) && decide (m ∈ reverse_dependencies_of g u)).length
                = (if m ∈ reverse_dependencies_of g y then 1 else 0)
                  + ((keysC (count_nodes g f y ((y, 1) :: c))).filter
                    fun u => decide (u ∉ y :: keysC c)
                      && decide (m ∈ reverse_dependencies_of g u)).length := by
              have hs : ((keysC (count_nodes g f y ((y, 1) :: c))).filter
                    fun u => decide (u ∉ keysC c) && decide (m ∈ reverse_dependencies_of g u))
                  = ((keysC (count_nodes g f y ((y, 1) :: c))).filter
                    fun u => (decide (u = y) && decide (m ∈ reverse_dependencies_of g u))
                      || (decide (u ∉ y :: keysC c) && decide (m ∈ reverse_dependencies_of g u))) := by
                apply filter_congr_mem
                intro u hu
                by_cases h1 : u = y
                · subst h1
                  simp [hynmem]
                · by_cases h2 : u ∈ keysC c
                  · simp [h1, h2]
                  · simp [h1, h2]
              have hdisj : ∀ u ∈ keysC (count_nodes g f y ((y, 1) :: c)),
                  ¬((decide (u = y) && decide (m ∈ reverse_dependencies_of g u)) = true
                    ∧ (decide (u ∉ y :: keysC c)
                        && decide (m ∈ reverse_dependencies_of g u)) = true) := by
                intro u hu hcon
                obtain ⟨hA, hB⟩ := hcon
                simp only [Bool.and_eq_true, decide_eq_true_eq] at hA hB
                exact hB.1 (List.mem_cons.mpr (Or.inl hA.1))
              rw [hs, length_filter_split _ _ _ hdisj,
                length_filter_eq_single _ y _ I2 hymem1]
              simp only [decide_eq_true_eq]
            rw [hsplit1, hsplit2, hsplit3]
            omega
    intro v c hf hv hb hnd
    have hl : ∀ y ∈ reverse_dependencies_of g v, y < g.size ∧ g.size ≤ f + y := by
      intro y hy
      have h1 := revdeps_lt_size g v y hy
      have h2 := revdeps_gt g v y hy
      exact ⟨h1, by omega⟩
    exact fold_spec (reverse_dependencies_of g v) c (revdeps_nodup g v) hl hb hnd

end NodeGraph

namespace NodeGraph

theorem decC_spec (c : List (Nat × Nat)) (k : Nat) (hk : k ∈ keysC c) :
    ∃ c', decC c k = some c' ∧ keysC c' = keysC c
      ∧ valC c' k = valC c k - 1 ∧ ∀ m, m ≠ k → valC c' m = valC c m := by
  have hsome : (lookupC c k).isSome = true := (lookupC_isSome_iff c k).mpr hk
  obtain ⟨w, hw⟩ : ∃ w, lookupC c k = some w := by
    cases hv : lookupC c k
    · rw [hv] at hsome
      cases hsome
    · exact ⟨_, rfl⟩
  refine ⟨adjustC c k (· - 1), ?_, keysC_adjust c k _, ?_, ?_⟩
  · rw [decC, if_pos hsome]
  · rw [valC, valC, lookupC_adjust_self c k (· - 1) w hw, hw]
    rfl
  · intro m hm
    rw [valC, valC, lookupC_adjust_other c k m (· - 1) hm]

theorem decAllC_spec : ∀ (ds : List Nat) (c : List (Nat × Nat)),
    ds.Nodup → (∀ d ∈ ds, d ∈ keysC c) →
    ∃ c', decAllC c ds = some c' ∧ keysC c' = keysC c
      ∧ ∀ m, valC c' m = valC c m - (if m ∈ ds then 1 else 0) := by
  intro ds
  induction ds with
  | nil =>
    intro c _ _
    exact ⟨c, rfl, rfl, fun m => by simp⟩
  | cons k ks ih =>
    intro c hnd hmem
    have hknd : k ∉ ks := (List.nodup_cons.mp hnd).1
    obtain ⟨c1, hc1, hk1, hvk, hvo⟩ := decC_spec c k (hmem k (by simp))
    obtain ⟨c', hc', hk', hv'⟩ := ih c1 (List.nodup_cons.mp hnd).2
      (fun d hd => hk1 ▸ hmem d (by simp [hd]))
    refine ⟨c', ?_, hk'.trans hk1, ?_⟩
    · rw [decAllC, hc1]
      exact hc'
    · intro m
      rw [hv' m]
      by_cases hm : m = k
      · subst hm
        rw [hvk, if_neg hknd, if_pos (by simp)]
        omega
      · rw [hvo m hm]
        by_cases hm2 : m ∈ ks
        · rw [if_pos hm2, if_pos (by simp [hm2])]
        · rw [if_neg hm2, if_neg (by simp [hm, hm2])]

theorem reaches_to_avoid (g : NodeGraph) (n : Nat) :
    ∀ u, u < g.size → reaches g u n = true →
      ∃ y ∈ reverse_dependencies_of g n, Avoid g ([] : List Nat) y u := by
  intro u
  induction u using Nat.strong_induction_on with
  | _ u ihu =>
    intro hus hr
    rcases (reaches_iff g u n).mp hr with ⟨c, hc, hcn⟩
    rcases hcn with he | hcr
    · subst he
      exact ⟨u, (mem_revdeps_iff g c u).mpr ⟨hus, hc⟩, Avoid.refl (by simp)⟩
    · have hcu : c < u := children_lt g u c hc
      obtain ⟨y, hy, hav⟩ := ihu c hcu (by omega) hcr
      exact ⟨y, hy, Avoid.step c u hav ((mem_revdeps_iff g c u).mpr ⟨hus, hc⟩) (by simp)⟩

theorem avoid_from_revdeps_iff (g : NodeGraph) (n : Nat) (hn : n < g.size) :
    ∀ u, (∃ y ∈ reverse_dependencies_of g n, Avoid g ([] : List Nat) y u)
      ↔ (u < g.size ∧ reaches g u n = true) := by
  intro u
  constructor
  · rintro ⟨y, hy, hav⟩
    induction hav with
    | refl hx =>
      refine ⟨revdeps_lt_size g n y hy, ?_⟩
      exact reaches_of_child g y n n ((mem_revdeps_iff g n y).mp hy).2 (Or.inl rfl)
    | step m u h hu hnd ih =>
      refine ⟨revdeps_lt_size g m u hu, ?_⟩
      exact reaches_of_child g u m n ((mem_revdeps_iff g m u).mp hu).2 (Or.inr ih.2)
  · intro h
    exact reaches_to_avoid g n u h.1 h.2

theorem calculate_intersections_spec (g : NodeGraph) (n : Nat) (hn : n < g.size) :
    ∃ inter, calculate_intersections g n = some inter
      ∧ (keysC inter).Nodup
      ∧ (∀ u, u ∈ keysC inter ↔ u < g.size ∧ reaches g u n = true)
      ∧ ∀ m ∈ keysC inter,
          valC inter m = ((keysC inter).filter fun u => decide (u ∈ g.childrenOf m)).length := by
  obtain ⟨C1, C2, C3, C4⟩ := count_spec g g.size n [] (by omega) hn (by simp [keysC]) (by simp [keysC])
  have hke : keysC ([] : List (Nat × Nat)) = ([] : List Nat) := rfl
  rw [hke] at C1 C4
  have hkeys : ∀ u, u ∈ keysC (count_nodes g g.size n [])
      ↔ u < g.size ∧ reaches g u n = true := by
    intro u
    rw [C1 u, avoid_from_revdeps_iff g n hn u]
    simp
  have hmemdec : ∀ d ∈ reverse_dependencies_of g n, d ∈ keysC (count_nodes g g.size n []) := by
    intro d hd
    rw [hkeys d]
    refine ⟨revdeps_lt_size g n d hd, ?_⟩
    exact reaches_of_child g d n n ((mem_revdeps_iff g n d).mp hd).2 (Or.inl rfl)
  obtain ⟨inter, hint, hkeq, hvals⟩ :=
    decAllC_spec (reverse_dependencies_of g n) (count_nodes g g.size n [])
      (revdeps_nodup g n) hmemdec
  refine ⟨inter, hint, hkeq ▸ C2, ?_, ?_⟩
  · intro u
    rw [hkeq]
    exact hkeys u
  · intro m hm
    have hms : m < g.size := ((hkeys m).mp (hkeq ▸ hm)).1
    have hcount := C4 m
    have hfcongr : ((keysC (count_nodes g g.size n [])).filter
          fun u => decide (u ∉ ([] : List Nat))
            && decide (m ∈ reverse_dependencies_of g u))
        = ((keysC (count_nodes g g.size n [])).filter
          fun u => decide (u ∈ g.childrenOf m)) := by
      apply filter_congr_mem
      intro u hu
      have hiff : (m ∈ reverse_dependencies_of g u) ↔ u ∈ g.childrenOf m := by
        rw [mem_revdeps_iff]
        exact ⟨fun h => h.2, fun h => ⟨hms, h⟩⟩
      simp [hiff]
    rw [hvals m, hcount, hfcongr, hkeq]
    have hv0 : valC ([] : List (Nat × Nat)) m = 0 := rfl
    rw [hv0]
    omega

end NodeGraph

namespace NodeGraph

/-- Mutable state of the `set_node_state` sweep: the states dict, the local
copy `dict(self._intersections[node])` iterated via `items()`, the
`requires_update` flags (domain tracked by `inter`), and a ghost trace of the
nodes finalized (popped from `intersections`), recording the sweep order. -/
structure SweepState where
  states : StateMap
  inter : List (Nat × Nat)
  requires_update : Nat → Bool
  trace : List Nat

/-- Body of the inner loop of `set_node_state` for a node whose snapshot
count is zero: if flagged, pop its state and recompute it via
`_update_node_state`; then decrement the counts of its reverse dependencies
(`KeyError` → `none`), or the change flag into their `requires_update`
entries, and pop the node from the counts. -/
def process_node (g : NodeGraph) (S : SweepState) (nd : Nat) : Option SweepState :=
  (if S.requires_update nd then
      match S.states nd with
      | none => none
      | some old =>
        let p := update_node_state g g.size (removeS S.states nd) nd
        some (p.1, decide (p.2 ≠ old))
    else some (S.states, false)).bind fun q =>
    (decAllC S.inter (reverse_dependencies_of g nd)).map fun inter2 =>
      { states := q.1
        inter := inter2.filter fun p => decide (p.1 ≠ nd)
        requires_update := fun d =>
          if d ∈ reverse_dependencies_of g nd then S.requires_update d || q.2
          else S.requires_update d
        trace := S.trace ++ [nd] }

/-- One pass of the `while` body: iterate over the snapshot
`intersections.items()`, processing exactly the entries whose snapshot count
is zero. -/
def sweep_pass (g : NodeGraph) : List (Nat × Nat) → SweepState → Option SweepState
  | [], S => some S
  | (nd, c) :: rest, S =>
    if c = 0 then (process_node g S nd).bind (sweep_pass g rest)
    else sweep_pass g rest S

/-- `any(requires_update.itervalues())`: the flags' domain is the key set of
`intersections` (both dicts always hold exactly the unfinalized nodes). -/
def any_ru (S : SweepState) : Bool := S.inter.any fun p => S.requires_update p.1

/-- The `while any(requires_update.itervalues())` loop, fuel-indexed; each
pass that runs pops at least one node, so fuel `g.size + 1` never runs out. -/
def sweep_loop (g : NodeGraph) : Nat → SweepState → Option SweepState
  | 0, S => if any_ru S then none else some S
  | fuel + 1, S =>
    if any_ru S then (sweep_pass g S.inter S).bind (sweep_loop g fuel)
    else some S

/-- `NodeGraph.set_node_state` with the ghost trace: reject states other than
RUNNING/ERROR/DONE (`ValueError`), store the new state, copy the precomputed
intersection counts of the node, seed `requires_update` as False everywhere
except the direct reverse dependencies, and run the drain loop. -/
def set_node_state_full (g : NodeGraph) (st : StateMap) (node state : Nat) :
    Option SweepState :=
  if state = RUNNING ∨ state = ERROR ∨ state = DONE then
    (calculate_intersections g node).bind fun inter =>
      sweep_loop g (g.size + 1)
        { states := insertS st node state
          inter := inter
          requires_update := fun d => decide (d ∈ reverse_dependencies_of g node)
          trace := [] }
  else none

/-- `NodeGraph.set_node_state`: the resulting states dict. -/
def set_node_state (g : NodeGraph) (st : StateMap) (node state : Nat) :
    Option StateMap :=
  (set_node_state_full g st node state).map SweepState.states

/-- The pinned base for the from-scratch recompute that `set_node_state`
refines: `base0` overridden at the changed node with its new state. -/
def pinAt (base0 : StateMap) (n s : Nat) : StateMap :=
  fun k => if k = n then some s else base0 k

theorem keysC_filter_ne (c : List (Nat × Nat)) (nd : Nat) :
    keysC (c.filter fun p => decide (p.1 ≠ nd))
      = (keysC c).filter fun u => decide (u ≠ nd) := by
  induction c with
  | nil => rfl
  | cons p c ih =>
    rw [keysC_cons, List.filter_cons, List.filter_cons]
    by_cases hp : p.1 = nd
    · rw [if_neg (by simp [hp]), if_neg (by simp [hp])]
      exact ih
    · rw [if_pos (by simp [hp]), if_pos (by simp [hp]), keysC_cons, ih]

theorem lookupC_filter_ne (c : List (Nat × Nat)) (nd m : Nat) (h : m ≠ nd) :
    lookupC (c.filter fun p => decide (p.1 ≠ nd)) m = lookupC c m := by
  induction c with
  | nil => rfl
  | cons p c ih =>
    obtain ⟨a, b⟩ := p
    by_cases hp : a = nd
    · rw [List.filter_cons, if_neg (by simp [hp]), lookupC_cons, if_neg (by omega)]
      exact ih
    · rw [List.filter_cons, if_pos (by simp [hp]), lookupC_cons, lookupC_cons]
      by_cases hm : a = m
      · rw [if_pos hm, if_pos hm]
      · rw [if_neg hm, if_neg hm]
        exact ih

theorem keys_length_le_size (g : NodeGraph) (l : List Nat) (hnd : l.Nodup)
    (hb : ∀ k ∈ l, k < g.size) : l.length ≤ g.size := by
  have hsub : l ⊆ List.range g.size := fun k hk => List.mem_range.mpr (hb k hk)
  have := (List.subperm_of_subset hnd hsub).length_le
  simpa using this

end NodeGraph

namespace NodeGraph

/-- Structural invariant of the sweep of `set_node_state(n, ·)`, relative to
the states dict `st1` the sweep started from (`self._states` right after the
new state was assigned): the trace lists pairwise-distinct reverse-reachable
nodes; the counts dict holds exactly the reverse-reachable nodes not yet
finalized, each with count = its number of dependencies/subnodes not yet
finalized; every finalized node has all its dependencies finalized or outside
the closure; the states dict stays total on tracked nodes and untouched
outside the trace. -/
structure SweepInv (g : NodeGraph) (n : Nat) (st1 : StateMap) (S : SweepState) : Prop where
  trace_nodup : S.trace.Nodup
  keys_nodup : (keysC S.inter).Nodup
  keys_iff : ∀ m, m ∈ keysC S.inter
      ↔ m < g.size ∧ reaches g m n = true ∧ m ∉ S.trace
  trace_closure : ∀ m ∈ S.trace, m < g.size ∧ reaches g m n = true
  counts : ∀ m ∈ keysC S.inter,
      valC S.inter m = ((keysC S.inter).filter fun u => decide (u ∈ g.childrenOf m)).length
  popped_closed : ∀ t ∈ S.trace, ∀ j ∈ g.childrenOf t, j ∉ keysC S.inter
  dom : ∀ i, i < g.size → (S.states i).isSome = true
  frame : ∀ i, i ∉ S.trace → S.states i = st1 i

theorem process_node_spec (g : NodeGraph) (n : Nat) (st1 : StateMap) (S : SweepState)
    (nd : Nat) (hinv : SweepInv g n st1 S) (hmem : nd ∈ keysC S.inter)
    (hch : ∀ u ∈ keysC S.inter, u ∉ g.childrenOf nd) :
    ∃ S', process_node g S nd = some S'
      ∧ SweepInv g n st1 S'
      ∧ S'.trace = S.trace ++ [nd]
      ∧ (∀ u, u ∈ keysC S'.inter ↔ u ∈ keysC S.inter ∧ u ≠ nd)
      ∧ (∀ i, i ≠ nd → S'.states i = S.states i)
      ∧ ∃ chg : Bool,
          (∀ d, S'.requires_update d
            = if d ∈ reverse_dependencies_of g nd then S.requires_update d || chg
              else S.requires_update d)
          ∧ (S.requires_update nd = false → chg = false ∧ S'.states nd = S.states nd)
          ∧ (S.requires_update nd = true →
              ∃ old, S.states nd = some old
                ∧ S'.states nd = some (pureState g (removeS S.states nd) nd)
                ∧ chg = decide (pureState g (removeS S.states nd) nd ≠ old)) := by
  obtain ⟨hnds, hndr, hndt⟩ := (hinv.keys_iff nd).mp hmem
  -- first stage: the optional recompute
  have hq : ∃ st2 : StateMap, ∃ chg : Bool,
      (if S.requires_update nd then
        match S.states nd with
        | none => none
        | some old =>
          let p := update_node_state g g.size (removeS S.states nd) nd
          some (p.1, decide (p.2 ≠ old))
      else some (S.states, false)) = some (st2, chg)
      ∧ (∀ i, i ≠ nd → st2 i = S.states i)
      ∧ (st2 nd).isSome = true
      ∧ (S.requires_update nd = false → chg = false ∧ st2 nd = S.states nd)
      ∧ (S.requires_update nd = true →
          ∃ old, S.states nd = some old
            ∧ st2 nd = some (pureState g (removeS S.states nd) nd)
            ∧ chg = decide (pureState g (removeS S.states nd) nd ≠ old)) := by
    by_cases hru : S.requires_update nd
    · have hds : (S.states nd).isSome = true := hinv.dom nd hnds
      obtain ⟨old, hold⟩ : ∃ old, S.states nd = some old := by
        cases hv : S.states nd
        · rw [hv] at hds
          cases hds
        · exact ⟨_, rfl⟩
      have hco : Coherent g (removeS S.states nd) (removeS S.states nd) :=
        ⟨fun _ _ h => h, fun j v h => (pureState_eq_of_base g _ j v h).symm⟩
      obtain ⟨hv2, hset, _, hframe⟩ :=
        update_spec g (removeS S.states nd) g.size nd (removeS S.states nd) hnds hco
      refine ⟨(update_node_state g g.size (removeS S.states nd) nd).1,
        decide ((update_node_state g g.size (removeS S.states nd) nd).2 ≠ old), ?_, ?_, ?_, ?_, ?_⟩
      · rw [if_pos hru, hold]
      · intro i hi
        rcases hframe i with h | ⟨hn2, hle, _⟩
        · rw [h, removeS, if_neg hi]
        · rw [removeS, if_neg hi] at hn2
          have := hinv.dom i (by omega)
          rw [hn2] at this
          cases this
      · rw [hset]
        rfl
      · intro hc
        rw [hc] at hru
        cases hru
      · intro _
        refine ⟨old, hold, ?_, by rw [hv2]⟩
        exact hset
    · refine ⟨S.states, false, ?_, fun i _ => rfl, hinv.dom nd hnds, fun _ => ⟨rfl, rfl⟩, ?_⟩
      · rw [if_neg hru]
      · intro hc
        rw [hc] at hru
        exact absurd rfl hru
  obtain ⟨st2, chg, hqeq, hst2, hst2nd, hfalse, htrue⟩ := hq
  -- decrements succeed
  have hdec : ∀ d ∈ reverse_dependencies_of g nd, d ∈ keysC S.inter := by
    intro d hd
    have hds : d < g.size := revdeps_lt_size g nd d hd
    have hcd : nd ∈ g.childrenOf d := ((mem_revdeps_iff g nd d).mp hd).2
    have hdr : reaches g d n = true := reaches_of_child g d nd n hcd (Or.inr hndr)
    refine (hinv.keys_iff d).mpr ⟨hds, hdr, ?_⟩
    intro hdt
    exact hinv.popped_closed d hdt nd hcd hmem
  obtain ⟨inter2, hint2, hkeq2, hval2⟩ :=
    decAllC_spec (reverse_dependencies_of g nd) S.inter (revdeps_nodup g nd) hdec
  have hndtrace : nd ∉ S.trace := hndt
  refine ⟨⟨st2, inter2.filter fun p => decide (p.1 ≠ nd),
    (fun d => if d ∈ reverse_dependencies_of g nd then S.requires_update d || chg
      else S.requires_update d), S.trace ++ [nd]⟩, ?_, ?_, rfl, ?_, ?_, ?_⟩
  · rw [process_node, hqeq]
    simp [hint2]
  · -- SweepInv for the new state
    have hknew : keysC (inter2.filter fun p => decide (p.1 ≠ nd))
        = (keysC S.inter).filter fun u => decide (u ≠ nd) := by
      rw [keysC_filter_ne, hkeq2]
    have hmemnew : ∀ u, (u ∈ (keysC S.inter).filter fun u => decide (u ≠ nd))
        ↔ u ∈ keysC S.inter ∧ u ≠ nd := by
      intro u
      rw [List.mem_filter]
      simp
    constructor
    · -- trace_nodup
      refine List.Nodup.append hinv.trace_nodup (by simp) ?_
      intro a ha hb
      rw [List.mem_singleton] at hb
      exact hndtrace (hb ▸ ha)
    · -- keys_nodup
      show (keysC _).Nodup
      rw [hknew]
      exact hinv.keys_nodup.filter _
    · -- keys_iff
      intro m
      show m ∈ keysC _ ↔ _
      rw [hknew, hmemnew m, hinv.keys_iff m]
      constructor
      · rintro ⟨⟨h1, h2, h3⟩, h4⟩
        refine ⟨h1, h2, ?_⟩
        intro hc
        rcases List.mem_append.mp hc with hc | hc
        · exact h3 hc
        · exact h4 (List.mem_singleton.mp hc)
      · rintro ⟨h1, h2, h3⟩
        have hmn : m ∉ S.trace := fun hc => h3 (List.mem_append.mpr (Or.inl hc))
        have hne : m ≠ nd := fun hc => h3 (List.mem_append.mpr (Or.inr (by simp [hc])))
        exact ⟨⟨h1, h2, hmn⟩, hne⟩
    · -- trace_closure
      intro m hm
      rcases List.mem_append.mp hm with hm | hm
      · exact hinv.trace_closure m hm
      · rw [List.mem_singleton] at hm
        subst hm
        exact ⟨hnds, hndr⟩
    · -- counts
      intro m hm
      show valC _ m = _
      rw [hknew] at hm
      obtain ⟨hmk, hmne⟩ := (hmemnew m).mp hm
      have hv : valC (inter2.filter fun p => decide (p.1 ≠ nd)) m = valC inter2 m := by
        rw [valC, valC, lookupC_filter_ne inter2 nd m hmne]
      rw [hv, hval2 m, hinv.counts m hmk]
      have hflt : ((keysC (inter2.filter fun p => decide (p.1 ≠ nd))).filter
            fun u => decide (u ∈ g.childrenOf m))
          = ((keysC S.inter).filter fun u => decide (u ≠ nd) && decide (u ∈ g.childrenOf m)) := by
        rw [hknew, List.filter_filter]
        apply filter_congr_mem
        intro u _
        rw [Bool.and_comm]
      rw [hflt]
      by_cases hin : m ∈ reverse_dependencies_of g nd
      · have hndm : nd ∈ g.childrenOf m := ((mem_revdeps_iff g nd m).mp hin).2
        have hs : ((keysC S.inter).filter fun u => decide (u ∈ g.childrenOf m))
            = ((keysC S.inter).filter fun u =>
                (decide (u = nd) && decide (u ∈ g.childrenOf m))
                || (decide (u ≠ nd) && decide (u ∈ g.childrenOf m))) := by
          apply filter_congr_mem
          intro u _
          by_cases h1 : u = nd
          · simp [h1]
          · simp [h1]
        have hdisj : ∀ u ∈ keysC S.inter,
            ¬((decide (u = nd) && decide (u ∈ g.childrenOf m)) = true
              ∧ (decide (u ≠ nd) && decide (u ∈ g.childrenOf m)) = true) := by
          intro u _ hcon
          obtain ⟨hA, hB⟩ := hcon
          simp only [Bool.and_eq_true, decide_eq_true_eq] at hA hB
          exact hB.1 hA.1
        rw [hs, length_filter_split _ _ _ hdisj,
          length_filter_eq_single _ nd _ hinv.keys_nodup hmem, if_pos hin]
        simp only [hndm, decide_eq_true_eq, if_pos]
        omega
      · have hndm : nd ∉ g.childrenOf m := by
          intro hc
          exact hin ((mem_revdeps_iff g nd m).mpr ⟨((hinv.keys_iff m).mp hmk).1, hc⟩)
        rw [if_neg hin]
        have hs : ((keysC S.inter).filter fun u =>
              decide (u ≠ nd) && decide (u ∈ g.childrenOf m))
            = ((keysC S.inter).filter fun u => decide (u ∈ g.childrenOf m)) := by
          apply filter_congr_mem
          intro u _
          by_cases h2 : u ∈ g.childrenOf m
          · have : u ≠ nd := fun hc => hndm (hc ▸ h2)
            simp [this, h2]
          · simp [h2]
        rw [hs]
        omega
    · -- popped_closed
      intro t ht j hj
      show j ∉ keysC _
      rw [hknew]
      intro hc
      obtain ⟨hjk, _⟩ := (hmemnew j).mp hc
      rcases List.mem_append.mp ht with ht | ht
      · exact hinv.popped_closed t ht j hj hjk
      · rw [List.mem_singleton] at ht
        exact hch j hjk (ht ▸ hj)
    · -- dom
      intro i hi
      show (st2 i).isSome = true
      by_cases hine : i = nd
      · rw [hine]
        exact hst2nd
      · rw [hst2 i hine]
        exact hinv.dom i hi
    · -- frame
      intro i hi
      show st2 i = st1 i
      have hit : i ∉ S.trace := fun hc => hi (List.mem_append.mpr (Or.inl hc))
      have hine : i ≠ nd := fun hc => hi (List.mem_append.mpr (Or.inr (by simp [hc])))
      rw [hst2 i hine]
      exact hinv.frame i hit
  · intro u
    show u ∈ keysC (inter2.filter fun p => decide (p.1 ≠ nd)) ↔ _
    rw [keysC_filter_ne, hkeq2, List.mem_filter]
    simp
  · intro i hi
    exact hst2 i hi
  · refine ⟨chg, fun d => rfl, hfalse, htrue⟩

end NodeGraph

namespace NodeGraph

theorem lookupC_of_mem_nodup (c : List (Nat × Nat)) (a b : Nat)
    (hnd : (keysC c).Nodup) (hab : (a, b) ∈ c) : lookupC c a = some b := by
  induction c with
  | nil => cases hab
  | cons p c ih =>
    obtain ⟨x, y⟩ := p
    rw [keysC_cons] at hnd
    rcases List.mem_cons.mp hab with he | hm
    · cases he
      rw [lookupC_cons, if_pos rfl]
    · have hax : a ∈ keysC c := List.mem_map.mpr ⟨(a, b), hm, rfl⟩
      have hxa : ¬ x = a := by
        intro hc
        exact (List.nodup_cons.mp hnd).1 (hc ▸ hax)
      rw [lookupC_cons, if_neg hxa]
      exact ih (List.nodup_cons.mp hnd).2 hm

theorem exists_min_mem : ∀ (l : List Nat), l ≠ [] → ∃ m ∈ l, ∀ u ∈ l, m ≤ u := by
  intro l
  induction l with
  | nil => intro h; exact absurd rfl h
  | cons x xs ih =>
    intro _
    by_cases hxs : xs = []
    · subst hxs
      refine ⟨x, by simp, ?_⟩
      intro u hu
      rw [List.mem_singleton] at hu
      omega
    · obtain ⟨m, hm, hmin⟩ := ih hxs
      by_cases hxm : x ≤ m
      · refine ⟨x, by simp, ?_⟩
        intro u hu
        rcases List.mem_cons.mp hu with h | h
        · omega
        · have := hmin u h
          omega
      · refine ⟨m, by simp [hm], ?_⟩
        intro u hu
        rcases List.mem_cons.mp hu with h | h
        · omega
        · exact hmin u h

theorem length_filter_ne_lt (l : List Nat) (a : Nat) (ha : a ∈ l) :
    (l.filter fun u => decide (u ≠ a)).length < l.length := by
  induction l with
  | nil => cases ha
  | cons x xs ih =>
    rw [List.filter_cons]
    by_cases hx : x = a
    · rw [if_neg (by simp [hx])]
      have := List.length_filter_le (fun u => decide (u ≠ a)) xs
      simp only [List.length_cons]
      omega
    · rw [if_pos (by simp [hx])]
      have hax : a ∈ xs := by
        rcases List.mem_cons.mp ha with h | h
        · exact absurd h.symm hx
        · exact h
      have := ih hax
      simp only [List.length_cons]
      omega

theorem sweep_pass_spec (g : NodeGraph) (n : Nat) (st1 : StateMap) (E : SweepState → Prop)
    (hE : ∀ S nd, SweepInv g n st1 S → E S → nd ∈ keysC S.inter →
      (∀ u ∈ keysC S.inter, u ∉ g.childrenOf nd) →
      ∀ S', process_node g S nd = some S' → E S') :
    ∀ (snap : List (Nat × Nat)) (S : SweepState),
      SweepInv g n st1 S → E S →
      (keysC snap).Nodup →
      (∀ p ∈ snap, p.1 ∈ keysC S.inter ∧
        (p.2 = 0 → ∀ u ∈ keysC S.inter, u ∉ g.childrenOf p.1)) →
      ∃ S', sweep_pass g snap S = some S'
        ∧ SweepInv g n st1 S' ∧ E S'
        ∧ (∀ u, u ∈ keysC S'.inter → u ∈ keysC S.inter)
        ∧ (∀ p ∈ snap, p.2 = 0 → p.1 ∉ keysC S'.inter) := by
  intro snap
  induction snap with
  | nil =>
    intro S hinv hEs _ _
    exact ⟨S, rfl, hinv, hEs, fun u hu => hu, by simp⟩
  | cons p rest ih =>
    intro S hinv hEs hnd hsnap
    obtain ⟨nd, c⟩ := p
    rw [keysC_cons] at hnd
    obtain ⟨hmem, hzero⟩ := hsnap (nd, c) (by simp)
    by_cases hc : c = 0
    · obtain ⟨S2, hS2, hinv2, htr2, hkeys2, hst2, -⟩ :=
        process_node_spec g n st1 S nd hinv hmem (hzero hc)
      have hE2 : E S2 := hE S nd hinv hEs hmem (hzero hc) S2 hS2
      obtain ⟨S', hS', hinv', hE', hsub', hpop'⟩ := ih S2 hinv2 hE2
        (List.nodup_cons.mp hnd).2
        (by
          intro q hq
          obtain ⟨hq1, hq2⟩ := hsnap q (by simp [hq])
          have hqne : q.1 ≠ nd := by
            intro hcq
            exact (List.nodup_cons.mp hnd).1
              (hcq ▸ List.mem_map.mpr ⟨q, hq, rfl⟩)
          refine ⟨(hkeys2 q.1).mpr ⟨hq1, hqne⟩, ?_⟩
          intro hq0 u hu
          exact hq2 hq0 u ((hkeys2 u).mp hu).1)
      refine ⟨S', ?_, hinv', hE', ?_, ?_⟩
      · rw [sweep_pass, if_pos hc, hS2]
        exact hS'
      · intro u hu
        exact ((hkeys2 u).mp (hsub' u hu)).1
      · intro q hq hq0
        rcases List.mem_cons.mp hq with he | hm
        · cases he
          intro hcon
          exact absurd ((hkeys2 nd).mp (hsub' nd hcon)).2 (by simp)
        · exact hpop' q hm hq0
    · obtain ⟨S', hS', hinv', hE', hsub', hpop'⟩ := ih S hinv hEs
        (List.nodup_cons.mp hnd).2
        (fun q hq => hsnap q (by simp [hq]))
      refine ⟨S', ?_, hinv', hE', hsub', ?_⟩
      · rw [sweep_pass, if_neg hc]
        exact hS'
      · intro q hq hq0
        rcases List.mem_cons.mp hq with he | hm
        · cases he
          exact absurd hq0 hc
        · exact hpop' q hm hq0

theorem sweep_loop_spec (g : NodeGraph) (n : Nat) (st1 : StateMap) (E : SweepState → Prop)
    (hE : ∀ S nd, SweepInv g n st1 S → E S → nd ∈ keysC S.inter →
      (∀ u ∈ keysC S.inter, u ∉ g.childrenOf nd) →
      ∀ S', process_node g S nd = some S' → E S') :
    ∀ (fuel : Nat) (S : SweepState), SweepInv g n st1 S → E S →
      (keysC S.inter).length < fuel →
      ∃ S', sweep_loop g fuel S = some S'
        ∧ SweepInv g n st1 S' ∧ E S' ∧ any_ru S' = false := by
  intro fuel
  induction fuel with
  | zero => intro S _ _ h; omega
  | succ f ih =>
    intro S hinv hEs hlen
    by_cases hru : any_ru S = true
    · have hne : keysC S.inter ≠ [] := by
        intro hc
        unfold any_ru at hru
        rw [List.any_eq_true] at hru
        obtain ⟨p, hp, -⟩ := hru
        have : p.1 ∈ keysC S.inter := List.mem_map.mpr ⟨p, hp, rfl⟩
        rw [hc] at this
        cases this
      obtain ⟨m, hmk, hmin⟩ := exists_min_mem (keysC S.inter) hne
      have hchm : ∀ u ∈ keysC S.inter, u ∉ g.childrenOf m := by
        intro u hu hcu
        have h1 := children_lt g m u hcu
        have h2 := hmin u hu
        omega
      have hvalm : valC S.inter m = 0 := by
        rw [hinv.counts m hmk]
        rw [List.length_eq_zero]
        apply filter_false_on
        intro u hu
        simp [hchm u hu]
      obtain ⟨pm, hpm, hpm1⟩ := List.mem_map.mp hmk
      have hpm2 : pm.2 = 0 := by
        have := lookupC_of_mem_nodup S.inter pm.1 pm.2 hinv.keys_nodup
          (by rw [show (pm.1, pm.2) = pm from rfl]; exact hpm)
        rw [hpm1] at this
        rw [valC, this] at hvalm
        exact hvalm
      have hsnapok : ∀ p ∈ S.inter, p.1 ∈ keysC S.inter ∧
          (p.2 = 0 → ∀ u ∈ keysC S.inter, u ∉ g.childrenOf p.1) := by
        intro p hp
        have hpk : p.1 ∈ keysC S.inter := List.mem_map.mpr ⟨p, hp, rfl⟩
        refine ⟨hpk, ?_⟩
        intro hp0 u hu
        have hval : valC S.inter p.1 = 0 := by
          have := lookupC_of_mem_nodup S.inter p.1 p.2 hinv.keys_nodup
            (by rw [show (p.1, p.2) = p from rfl]; exact hp)
          rw [valC, this, hp0]
          rfl
        rw [hinv.counts p.1 hpk, List.length_eq_zero] at hval
        intro hcu
        have : u ∈ (keysC S.inter).filter fun u => decide (u ∈ g.childrenOf p.1) :=
          List.mem_filter.mpr ⟨hu, by simp [hcu]⟩
        rw [hval] at this
        cases this
      obtain ⟨S2, hS2, hinv2, hE2, hsub2, hpop2⟩ :=
        sweep_pass_spec g n st1 E hE S.inter S hinv hEs hinv.keys_nodup hsnapok
      have hm2 : m ∉ keysC S2.inter := by
        rw [← hpm1]
        exact hpop2 pm hpm hpm2
      have hlen2 : (keysC S2.inter).length < (keysC S.inter).length := by
        have hsub3 : keysC S2.inter ⊆ (keysC S.inter).filter fun u => decide (u ≠ m) := by
          intro u hu
          refine List.mem_filter.mpr ⟨hsub2 u hu, ?_⟩
          simp only [decide_eq_true_eq]
          intro hc
          exact hm2 (hc ▸ hu)
        have h4 := (List.subperm_of_subset hinv2.keys_nodup hsub3).length_le
        have h5 := length_filter_ne_lt (keysC S.inter) m hmk
        omega
      obtain ⟨S', hS', hinv', hE', hru'⟩ := ih S2 hinv2 hE2 (by omega)
      refine ⟨S', ?_, hinv', hE', hru'⟩
      rw [sweep_loop, if_pos hru, hS2]
      exact hS'
    · refine ⟨S, ?_, hinv, hEs, by simpa using hru⟩
      rw [sweep_loop, if_neg hru]

end NodeGraph

namespace NodeGraph

theorem set_node_state_spec (g : NodeGraph) (st : StateMap) (n s : Nat)
    (E : SweepState → Prop)
    (hE : ∀ S nd, SweepInv g n (insertS st n s) S → E S → nd ∈ keysC S.inter →
      (∀ u ∈ keysC S.inter, u ∉ g.childrenOf nd) →
      ∀ S', process_node g S nd = some S' → E S')
    (hn : n < g.size) (hs : s = RUNNING ∨ s = ERROR ∨ s = DONE)
    (hdom : ∀ i, i < g.size → (st i).isSome = true)
    (hE0 : ∀ inter, calculate_intersections g n = some inter →
        E { states := insertS st n s, inter := inter,
            requires_update := fun d => decide (d ∈ reverse_dependencies_of g n),
            trace := [] }) :
    ∃ S', set_node_state_full g st n s = some S'
      ∧ SweepInv g n (insertS st n s) S' ∧ E S' ∧ any_ru S' = false := by
  obtain ⟨inter, hint, hnd, hkeys, hcounts⟩ := calculate_intersections_spec g n hn
  have hinv0 : SweepInv g n (insertS st n s)
      { states := insertS st n s, inter := inter,
        requires_update := fun d => decide (d ∈ reverse_dependencies_of g n),
        trace := [] } := by
    constructor
    · exact List.nodup_nil
    · exact hnd
    · intro m
      rw [hkeys m]
      simp
    · intro m hm
      cases hm
    · exact hcounts
    · intro t ht
      cases ht
    · intro i hi
      show (insertS st n s i).isSome = true
      rw [insertS]
      by_cases hin : i = n
      · rw [if_pos hin]
        rfl
      · rw [if_neg hin]
        exact hdom i hi
    · intro i _
      rfl
  have hblen : (keysC inter).length < g.size + 1 := by
    have : (keysC inter).length ≤ g.size := by
      apply keys_length_le_size g _ hnd
      intro k hk
      exact ((hkeys k).mp hk).1
    omega
  obtain ⟨S', hS', hinv', hE', hru'⟩ :=
    sweep_loop_spec g n (insertS st n s) E hE (g.size + 1) _ hinv0
      (hE0 inter hint) hblen
  refine ⟨S', ?_, hinv', hE', hru'⟩
  rw [set_node_state_full, if_pos hs, hint]
  exact hS'

/-- C2: for a tracked node `n` and a new state in {RUNNING, ERROR, DONE},
`set_node_state` succeeds (given that every tracked node has a state entry),
and the stored state of every node that does not depend on `n` directly or
transitively through dependencies/subnodes — every node outside `n`'s
reflexive reverse-reachable closure — is bit-for-bit unchanged. -/
theorem claim_C2_untouched_outside_closure (g : NodeGraph) (st : StateMap) (n s : Nat)
    (hn : n < g.size) (hs : s = RUNNING ∨ s = ERROR ∨ s = DONE)
    (hdom : ∀ i, i < g.size → (st i).isSome = true) :
    ∃ st', set_node_state g st n s = some st'
      ∧ ∀ i, i ≠ n → reaches g i n = false → st' i = st i := by
  obtain ⟨S', hS', hinv', -, -⟩ :=
    set_node_state_spec g st n s (fun _ => True)
      (fun _ _ _ _ _ _ _ _ => trivial) hn hs hdom (fun _ _ => trivial)
  refine ⟨S'.states, ?_, ?_⟩
  · rw [set_node_state, hS']
    rfl
  · intro i hin hir
    have hit : i ∉ S'.trace := by
      intro hc
      have := (hinv'.trace_closure i hc).2
      rw [hir] at this
      cases this
    rw [hinv'.frame i hit, insertS, if_neg hin]

/-- Witness for C2 at a concrete input: in the three-node chain, setting node
0 to ERROR succeeds, and an isolated description of the untouched nodes is
obtained by instantiating the frame theorem (all nodes of `chainABC` reach
node 0, so only out-of-range indices are constrained here, e.g. index 5). -/
theorem claim_C2_witness :
    (0 : Nat) < chainABC.size
    ∧ (∃ st', set_node_state chainABC stErrChain 0 ERROR = some st'
        ∧ ∀ i, i ≠ 0 → reaches chainABC i 0 = false → st' i = stErrChain i) := by
  refine ⟨by decide, claim_C2_untouched_outside_closure chainABC stErrChain 0 ERROR
    (by decide) (Or.inr (Or.inl rfl)) ?_⟩
  intro i hi
  have h3 : chainABC.size = 3 := rfl
  match i, hi with
  | 0, _ => rfl
  | 1, _ => rfl
  | 2, _ => rfl
  | i + 3, hi => exact absurd hi (by omega)

/-- C10: the domain of the state map is exactly the tracked node set (the key
set of the reverse-dependency index, i.e. indices below `g.size`): after
construction (`__init__` runs `refresh_states` on an empty dict), after any
`refresh_states` on a map whose entries are confined to tracked nodes, and
after any completed `set_node_state` on a map defined exactly on the tracked
nodes, every tracked node has exactly one state entry and untracked nodes
have none. -/
theorem claim_C10_state_domain (g : NodeGraph) (st : StateMap) (n s : Nat)
    (hn : n < g.size) (hs : s = RUNNING ∨ s = ERROR ∨ s = DONE)
    (hout : ∀ i, g.size ≤ i → st i = none)
    (hdom : ∀ i, i < g.size → (st i).isSome = true) :
    (∀ i, ((refresh_states g emptyS) i).isSome = true ↔ i < g.size)
    ∧ (∀ i, ((refresh_states g st) i).isSome = true ↔ i < g.size)
    ∧ ∃ st', set_node_state g st n s = some st'
        ∧ ∀ i, (st' i).isSome = true ↔ i < g.size := by
  refine ⟨?_, ?_, ?_⟩
  · intro i
    obtain ⟨hin, hout2⟩ := refresh_spec g emptyS
    constructor
    · intro h
      by_contra hc
      rw [hout2 i (by omega)] at h
      cases h
    · intro h
      rw [hin i h]
      rfl
  · intro i
    obtain ⟨hin, hout2⟩ := refresh_spec g st
    constructor
    · intro h
      by_contra hc
      rw [hout2 i (by omega)] at h
      have : stickyOf st i = none := by
        unfold stickyOf
        rw [hout i (by omega)]
      rw [this] at h
      cases h
    · intro h
      rw [hin i h]
      rfl
  · obtain ⟨S', hS', hinv', -, -⟩ :=
      set_node_state_spec g st n s (fun _ => True)
        (fun _ _ _ _ _ _ _ _ => trivial) hn hs hdom (fun _ _ => trivial)
    refine ⟨S'.states, by rw [set_node_state, hS']; rfl, ?_⟩
    intro i
    constructor
    · intro h
      by_contra hc
      have hit : i ∉ S'.trace := by
        intro hc2
        have := (hinv'.trace_closure i hc2).1
        omega
      rw [hinv'.frame i hit, insertS, if_neg (by omega)] at h
      rw [hout i (by omega)] at h
      cases h
    · intro h
      exact hinv'.dom i h

/-- Witness for C10 at a concrete input: the chain graph with node 0 set to
ERROR; all three parts of the domain theorem instantiated. -/
theorem claim_C10_witness :
    (∀ i, ((refresh_states chainABC emptyS) i).isSome = true ↔ i < chainABC.size)
    ∧ (∀ i, ((refresh_states chainABC stErrChain) i).isSome = true ↔ i < chainABC.size)
    ∧ ∃ st', set_node_state chainABC stErrChain 0 ERROR = some st'
        ∧ ∀ i, (st' i).isSome = true ↔ i < chainABC.size := by
  apply claim_C10_state_domain chainABC stErrChain 0 ERROR (by decide)
    (Or.inr (Or.inl rfl))
  · intro i hi
    have h3 : chainABC.size = 3 := rfl
    unfold stErrChain
    rw [if_neg (by omega), if_neg (by omega), if_neg (by omega)]
  · intro i hi
    have h3 : chainABC.size = 3 := rfl
    match i, hi with
    | 0, _ => rfl
    | 1, _ => rfl
    | 2, _ => rfl
    | i + 3, hi => exact absurd hi (by omega)

end NodeGraph

namespace NodeGraph

/-- Semantic invariant of the sweep of `set_node_state(n, s)` started from a
consistent state map (every tracked entry equal to the from-scratch value
over a pinned base `base0` that pins nothing inside `n`'s reverse-reachable
closure): every finalized node already holds its from-scratch value over
`base0` re-pinned at `n ↦ s`; a still-unfinalized node whose update flag is
clear has only unaffected finalized dependencies; and nodes depending
directly on `n` keep their flag set. -/
structure SemInv (g : NodeGraph) (n s : Nat) (base0 : StateMap) (S : SweepState) : Prop where
  val_trace : ∀ i ∈ S.trace, S.states i = some (pureState g (pinAt base0 n s) i)
  ru_false : ∀ m ∈ keysC S.inter, S.requires_update m = false →
      ∀ j ∈ g.childrenOf m, j ∈ S.trace →
        pureState g (pinAt base0 n s) j = pureState g base0 j
  ru_n : ∀ m ∈ keysC S.inter, n ∈ g.childrenOf m → S.requires_update m = true

theorem pinAt_self (base0 : StateMap) (n s : Nat) : pinAt base0 n s n = some s := by
  rw [pinAt, if_pos rfl]

theorem pinAt_other (base0 : StateMap) (n s j : Nat) (h : j ≠ n) :
    pinAt base0 n s j = base0 j := by
  rw [pinAt, if_neg h]

theorem pure_pin_eq_off_closure (g : NodeGraph) (base0 : StateMap) (n s : Nat)
    (j : Nat) (hjn : j ≠ n) (hjr : reaches g j n = false) :
    pureState g (pinAt base0 n s) j = pureState g base0 j := by
  apply pure_congr
  intro k hk
  rcases hk with hk | hk
  · subst hk
    exact pinAt_other base0 n s k hjn
  · have hkn : k ≠ n := by
      intro hc
      rw [hc] at hk
      rw [hk] at hjr
      cases hjr
    exact pinAt_other base0 n s k hkn

theorem n_not_in_trace (g : NodeGraph) (n : Nat) (st1 : StateMap) (S : SweepState)
    (hinv : SweepInv g n st1 S) : n ∉ S.trace := by
  intro hc
  have := (hinv.trace_closure n hc).2
  rw [reaches_irrefl g n] at this
  cases this

theorem sem_step (g : NodeGraph) (st0 : StateMap) (n s : Nat) (base0 : StateMap)
    (hn : n < g.size)
    (H1 : ∀ i, i < g.size → st0 i = some (pureState g base0 i))
    (H3 : ∀ m, reaches g m n = true → base0 m = none) :
    ∀ S nd, SweepInv g n (insertS st0 n s) S → SemInv g n s base0 S →
      nd ∈ keysC S.inter →
      (∀ u ∈ keysC S.inter, u ∉ g.childrenOf nd) →
      ∀ S', process_node g S nd = some S' → SemInv g n s base0 S' := by
  intro S nd hinv hsem hmem hch S' hproc
  obtain ⟨S'', hproc'', hinv'', htr'', hkeys'', hst'', chg, hruF, hfalse, htrue⟩ :=
    process_node_spec g n (insertS st0 n s) S nd hinv hmem hch
  rw [hproc''] at hproc
  cases hproc
  obtain ⟨hnds, hndr, hndt⟩ := (hinv.keys_iff nd).mp hmem
  have hndn : nd ≠ n := by
    intro hc
    rw [hc, reaches_irrefl g n] at hndr
    cases hndr
  have hnt : n ∉ S.trace := n_not_in_trace g n _ S hinv
  have hchn : ∀ j ∈ g.childrenOf nd, j ∉ keysC S.inter := by
    intro j hj hc
    exact hch j hc hj
  -- every dependency of nd already holds its pinned-recompute value
  have hvals : ∀ j ∈ g.childrenOf nd,
      S.states j = some (pureState g (pinAt base0 n s) j) := by
    intro j hj
    have hjnd : j < nd := children_lt g nd j hj
    by_cases hjn : j = n
    · subst hjn
      rw [hinv.frame j hnt, insertS, if_pos rfl,
        pureState_eq_of_base g _ j s (pinAt_self base0 j s)]
    · by_cases hjt : j ∈ S.trace
      · exact hsem.val_trace j hjt
      · have hjr : reaches g j n = false := by
          by_contra hc
          rw [Bool.not_eq_false] at hc
          exact hchn j hj ((hinv.keys_iff j).mpr ⟨by omega, hc, hjt⟩)
        rw [hinv.frame j hjt, insertS, if_neg hjn, H1 j (by omega),
          pure_pin_eq_off_closure g base0 n s j hjn hjr]
  have hbase1nd : pinAt base0 n s nd = none := by
    rw [pinAt_other base0 n s nd hndn]
    exact H3 nd hndr
  -- the recomputed value is the pinned-recompute value
  have hrecomp : pureState g (removeS S.states nd) nd
      = pureState g (pinAt base0 n s) nd := by
    have h2 : removeS S.states nd nd = none := by
      rw [removeS, if_pos rfl]
    rw [pureState_eq_of_none g _ nd h2, pureState_eq_of_none g _ nd hbase1nd]
    congr 1
    apply foldl_max_congr
    intro j hj
    have hjnd : j < nd := children_lt g nd j hj
    have : removeS S.states nd j = some (pureState g (pinAt base0 n s) j) := by
      rw [removeS, if_neg (by omega)]
      exact hvals j hj
    rw [pureState_eq_of_base g _ j _ this]
  -- when the flag is clear, the pinned value coincides with the base value
  have hskip : S.requires_update nd = false →
      pureState g (pinAt base0 n s) nd = pureState g base0 nd := by
    intro hru
    rw [pureState_eq_of_none g _ nd hbase1nd,
      pureState_eq_of_none g _ nd (H3 nd hndr)]
    congr 1
    apply foldl_max_congr
    intro j hj
    have hjnd : j < nd := children_lt g nd j hj
    by_cases hjn : j = n
    · exact absurd (hsem.ru_n nd hmem (hjn ▸ hj)) (by rw [hru]; simp)
    · by_cases hjt : j ∈ S.trace
      · exact hsem.ru_false nd hmem hru j hj hjt
      · have hjr : reaches g j n = false := by
          by_contra hc
          rw [Bool.not_eq_false] at hc
          exact hchn j hj ((hinv.keys_iff j).mpr ⟨by omega, hc, hjt⟩)
        exact pure_pin_eq_off_closure g base0 n s j hjn hjr
  -- nd's new stored value
  have hndval : S'.states nd = some (pureState g (pinAt base0 n s) nd) := by
    by_cases hru : S.requires_update nd = true
    · obtain ⟨old, hold, hst, hchg⟩ := htrue hru
      rw [hst, hrecomp]
    · rw [Bool.not_eq_true] at hru
      obtain ⟨-, hst⟩ := hfalse hru
      rw [hst, hinv.frame nd hndt, insertS, if_neg hndn, H1 nd hnds,
        hskip hru]
  -- the change flag is clear only when the pinned value equals the base value
  have hchg_false : chg = false → pureState g (pinAt base0 n s) nd = pureState g base0 nd := by
    intro hcf
    by_cases hru : S.requires_update nd = true
    · obtain ⟨old, hold, hst, hchg⟩ := htrue hru
      have hold2 : old = pureState g base0 nd := by
        rw [hinv.frame nd hndt, insertS, if_neg hndn, H1 nd hnds] at hold
        exact (Option.some_injective _ hold).symm
      rw [hchg] at hcf
      have : pureState g (removeS S.states nd) nd = old := by
        by_contra hc
        simp [hc] at hcf
      rw [← hrecomp, this, hold2]
    · rw [Bool.not_eq_true] at hru
      exact hskip hru
  constructor
  · -- val_trace
    intro i hi
    rw [htr''] at hi
    rcases List.mem_append.mp hi with hi | hi
    · rw [hst'' i (fun hc => hndt (hc ▸ hi))]
      exact hsem.val_trace i hi
    · rw [List.mem_singleton] at hi
      subst hi
      exact hndval
  · -- ru_false
    intro m hm hruf j hj hjt
    obtain ⟨hmk, hmnd⟩ := (hkeys'' m).mp hm
    have hmru := hruF m
    rw [hruf] at hmru
    have hSm : S.requires_update m = false := by
      by_cases hmr : m ∈ reverse_dependencies_of g nd
      · rw [if_pos hmr] at hmru
        cases hb : S.requires_update m
        · rfl
        · rw [hb] at hmru
          cases hmru
      · rw [if_neg hmr] at hmru
        exact hmru.symm
    rw [htr''] at hjt
    rcases List.mem_append.mp hjt with hjt | hjt
    · exact hsem.ru_false m hmk hSm j hj hjt
    · rw [List.mem_singleton] at hjt
      rw [hjt]
      have hmr : m ∈ reverse_dependencies_of g nd :=
        (mem_revdeps_iff g nd m).mpr ⟨((hinv.keys_iff m).mp hmk).1, hjt ▸ hj⟩
      rw [if_pos hmr] at hmru
      have hchgf : chg = false := by
        cases hb : chg
        · rfl
        · rw [hb, Bool.or_true] at hmru
          cases hmru
      exact hchg_false hchgf
  · -- ru_n
    intro m hm hnm
    obtain ⟨hmk, hmnd⟩ := (hkeys'' m).mp hm
    have := hsem.ru_n m hmk hnm
    rw [hruF m]
    by_cases hmr : m ∈ reverse_dependencies_of g nd
    · rw [if_pos hmr, this]
      rfl
    · rw [if_neg hmr]
      exact this

end NodeGraph

namespace NodeGraph

theorem sem_final (g : NodeGraph) (st0 : StateMap) (n s : Nat) (base0 : StateMap)
    (hn : n < g.size)
    (H1 : ∀ i, i < g.size → st0 i = some (pureState g base0 i))
    (H3 : ∀ m, reaches g m n = true → base0 m = none)
    (S : SweepState) (hinv : SweepInv g n (insertS st0 n s) S)
    (hsem : SemInv g n s base0 S) (hru : any_ru S = false) :
    ∀ i, i < g.size → S.states i = some (pureState g (pinAt base0 n s) i) := by
  have hallru : ∀ m ∈ keysC S.inter, S.requires_update m = false := by
    intro m hm
    obtain ⟨p, hp, hp1⟩ := List.mem_map.mp hm
    unfold any_ru at hru
    rw [List.any_eq_false] at hru
    have := hru p hp
    rw [hp1] at this
    cases hb : S.requires_update m
    · rfl
    · rw [hb] at this
      exact absurd rfl this
  have hkeys_eq : ∀ m, m ∈ keysC S.inter
      → pureState g (pinAt base0 n s) m = pureState g base0 m := by
    intro m
    induction m using Nat.strong_induction_on with
    | _ m ihm =>
      intro hm
      obtain ⟨hms, hmr, hmt⟩ := (hinv.keys_iff m).mp hm
      have hmn : m ≠ n := by
        intro hc
        rw [hc, reaches_irrefl g n] at hmr
        cases hmr
      have hb1 : pinAt base0 n s m = none := by
        rw [pinAt_other base0 n s m hmn]
        exact H3 m hmr
      rw [pureState_eq_of_none g _ m hb1, pureState_eq_of_none g _ m (H3 m hmr)]
      congr 1
      apply foldl_max_congr
      intro j hj
      have hjm : j < m := children_lt g m j hj
      by_cases hjn : j = n
      · exact absurd (hsem.ru_n m hm (hjn ▸ hj)) (by rw [hallru m hm]; simp)
      · by_cases hjt : j ∈ S.trace
        · exact hsem.ru_false m hm (hallru m hm) j hj hjt
        · by_cases hjk : j ∈ keysC S.inter
          · exact ihm j hjm hjk
          · have hjr : reaches g j n = false := by
              by_contra hc
              rw [Bool.not_eq_false] at hc
              exact hjk ((hinv.keys_iff j).mpr ⟨by omega, hc, hjt⟩)
            exact pure_pin_eq_off_closure g base0 n s j hjn hjr
  intro i hi
  by_cases hin : i = n
  · subst hin
    rw [hinv.frame i (n_not_in_trace g i _ S hinv), insertS, if_pos rfl,
      pureState_eq_of_base g _ i s (pinAt_self base0 i s)]
  · by_cases hit : i ∈ S.trace
    · exact hsem.val_trace i hit
    · by_cases hik : i ∈ keysC S.inter
      · rw [hinv.frame i hit, insertS, if_neg hin, H1 i hi, hkeys_eq i hik]
      · have hir : reaches g i n = false := by
          by_contra hc
          rw [Bool.not_eq_false] at hc
          exact hik ((hinv.keys_iff i).mpr ⟨hi, hc, hit⟩)
        rw [hinv.frame i hit, insertS, if_neg hin, H1 i hi,
          pure_pin_eq_off_closure g base0 n s i hin hir]

/-- C1 (amended): for a tracked node `n` and new state `s` in {RUNNING,
ERROR, DONE}, starting from a consistent state map — every tracked entry
equals the from-scratch recomputation over a pinned base `base0` whose pins
avoid `n`'s reverse-reachable closure (e.g. the freshly-refreshed state, or a
state whose sticky pins all lie outside the closure) — `set_node_state(n, s)`
succeeds, the resulting state mapping equals the full from-scratch recompute
of all node states with `n` pinned to `s`, and the incremental sweep
finalizes only nodes of `n`'s reverse-reachable closure, each AT MOST once
(nodes whose recomputed upstream values are unchanged are skipped — the whole
point of the drain-counter optimization). -/
theorem claim_C1_incremental_refines_recompute (g : NodeGraph) (st0 : StateMap)
    (n s : Nat) (base0 : StateMap)
    (hn : n < g.size) (hs : s = RUNNING ∨ s = ERROR ∨ s = DONE)
    (H1 : ∀ i, i < g.size → st0 i = some (pureState g base0 i))
    (H3 : ∀ m, reaches g m n = true → base0 m = none) :
    ∃ S', set_node_state_full g st0 n s = some S'
      ∧ (∀ i, i < g.size → S'.states i = some (pureState g (pinAt base0 n s) i))
      ∧ S'.trace.Nodup
      ∧ (∀ m ∈ S'.trace, reaches g m n = true) := by
  have hdom : ∀ i, i < g.size → (st0 i).isSome = true := by
    intro i hi
    rw [H1 i hi]
    rfl
  obtain ⟨S', hS', hinv', hsem', hru'⟩ :=
    set_node_state_spec g st0 n s (SemInv g n s base0)
      (sem_step g st0 n s base0 hn H1 H3) hn hs hdom
      (by
        intro inter hint
        constructor
        · intro i hi
          cases hi
        · intro m hm hruf j hj hjt
          cases hjt
        · intro m hm hnm
          show decide (m ∈ reverse_dependencies_of g n) = true
          obtain ⟨inter2, hint2, hnd2, hkeys2, -⟩ := calculate_intersections_spec g n hn
          rw [hint2] at hint
          cases hint
          have hms : m < g.size := ((hkeys2 m).mp hm).1
          simp [mem_revdeps_iff, hms, hnm])
  exact ⟨S', hS', sem_final g st0 n s base0 hn H1 H3 S' hinv' hsem' hru',
    hinv'.trace_nodup, fun m hm => (hinv'.trace_closure m hm).2⟩

/-- A single-node graph (one executable node with nothing on disk). -/
def oneNode : NodeGraph where
  nodes := [{}]
  wf := by decide

/-- The consistent state of `oneNode` after its initial refresh. -/
def stOne : StateMap := fun i => if i = 0 then some RUNABLE else none

/-- The consistent state of `chainABC` after its initial refresh. -/
def stChainFresh : StateMap := fun i =>
  if i = 0 then some RUNABLE else if i = 1 then some QUEUED
  else if i = 2 then some QUEUED else none

/-- C1 counterexample, refuting both halves of the claim as stated.
First half: after `set_node_state(A, DONE)` on the one-node graph (node 0 not
done on disk), the stored mapping has node 0 ↦ DONE, while a full
from-scratch recompute (`refresh_states`, DONE not being sticky) yields
RUNABLE — the mapping does not equal the from-scratch recompute.
Second half: on the chain 0 ← 1 ← 2, `set_node_state(0, RUNNING)` from the
freshly-refreshed state finalizes only node 1 (its recomputed state QUEUED is
unchanged, so the change flag never propagates), although node 2 is in
node 0's reverse-reachable closure: node 2 is finalized zero times, not
exactly once. -/
theorem claim_C1_counterexample :
    ((set_node_state oneNode stOne 0 DONE).bind fun m => m 0) = some DONE
    ∧ ((set_node_state oneNode stOne 0 DONE).map fun m => refresh_states oneNode m 0)
        = some (some RUNABLE)
    ∧ DONE ≠ RUNABLE
    ∧ ((set_node_state_full chainABC stChainFresh 0 RUNNING).map SweepState.trace)
        = some [1]
    ∧ reaches chainABC 2 0 = true
    ∧ (2 : Nat) ∉ [1] := by decide

/-- Witness for the amended C1 at a concrete input: the chain graph,
`set_node_state(0, RUNNING)` from the freshly-refreshed state (consistent
over the empty base). -/
theorem claim_C1_witness :
    ∃ S', set_node_state_full chainABC stChainFresh 0 RUNNING = some S'
      ∧ (∀ i, i < chainABC.size
          → S'.states i = some (pureState chainABC (pinAt emptyS 0 RUNNING) i))
      ∧ S'.trace.Nodup
      ∧ (∀ m ∈ S'.trace, reaches chainABC m 0 = true) := by
  apply claim_C1_incremental_refines_recompute chainABC stChainFresh 0 RUNNING emptyS
    (by decide) (Or.inl rfl)
  · intro i hi
    have h3 : chainABC.size = 3 := rfl
    match i, hi with
    | 0, _ => decide
    | 1, _ => decide
    | 2, _ => decide
    | i + 3, hi => exact absurd hi (by omega)
  · intro m _
    rfl

end NodeGraph

namespace NodeGraph

/-- Construction-time diagnostics of `_check_file_dependencies`, modelled as
structured items (one per `yield` of the two checkers) rather than formatted
message strings: each item carries the nodes and path the message reports. -/
inductive GraphError where
  | clobbered (filename : String) (producers : List Nat)
  | undeclared (consumer : Nat) (filename : String) (producer : Nat)
  | missing_static (filename : String) (consumers : List Nat)
  deriving DecidableEq

/-- `_MAX_ERROR_MESSAGES = 10`: max number of error messages of each type. -/
def MAX_ERROR_MESSAGES : Nat := 10

/-- Deduplicated filename list, first occurrence first (models iteration over
the `defaultdict` built by appending each node's files in node order). -/
def firstDedup (l : List String) : List String :=
  l.foldl (fun acc x => if x ∈ acc then acc else acc ++ [x]) []

/-- Nodes producing file `f` (`output_files[f]`, in node order). -/
def producers_of (g : NodeGraph) (f : String) : List Nat :=
  (List.range g.size).filter fun i => f ∈ (g.info i).output_files

/-- Nodes consuming file `f` (`input_files[f]`, in node order). -/
def consumers_of (g : NodeGraph) (f : String) : List Nat :=
  (List.range g.size).filter fun i => f ∈ (g.info i).input_files

/-- Keys of the `output_files` dict. -/
def output_filenames (g : NodeGraph) : List String :=
  firstDedup ((List.range g.size).flatMap fun i => (g.info i).output_files)

/-- Keys of the `input_files` dict. -/
def input_filenames (g : NodeGraph) : List String :=
  firstDedup ((List.range g.size).flatMap fun i => (g.info i).input_files)

/-- `NodeGraph._check_output_files`: one clobber item per filename with more
than one producer, listing all its producers. -/
def check_output_files (g : NodeGraph) : List GraphError :=
  (output_filenames g).filterMap fun f =>
    if 2 ≤ (producers_of g f).length then some (.clobbered f (producers_of g f))
    else none

/-- `NodeGraph._check_input_dependencies` over a filesystem snapshot `fs`
(`os.path.exists`): for each input filename, if some node produces it, every
consumer must have the first producer among its transitive dependencies
(`_collect_dependencies`, whose membership test is `reaches`); otherwise the
file must already exist on disk. -/
def check_input_dependencies (g : NodeGraph) (fs : String → Bool) : List GraphError :=
  (input_filenames g).flatMap fun f =>
    if producers_of g f ≠ [] then
      (consumers_of g f).filterMap fun c =>
        if reaches g c ((producers_of g f).headD 0) then none
        else some (.undeclared c f ((producers_of g f).headD 0))
    else if fs f = false then [.missing_static f (consumers_of g f)]
    else []

/-- `NodeGraph._check_file_dependencies`: the `zip(range(10), generator)`
calls truncate each checker to its first 10 items; construction raises
`NodeGraphError` iff the combined list is nonempty. -/
def check_file_dependencies (g : NodeGraph) (fs : String → Bool) : List GraphError :=
  (check_output_files g).take MAX_ERROR_MESSAGES
    ++ (check_input_dependencies g fs).take MAX_ERROR_MESSAGES

/-- Tag test for clobber items. -/
def GraphError.isClobbered : GraphError → Bool
  | .clobbered _ _ => true
  | _ => false

/-- Tag test for undeclared-dynamic-dependency items. -/
def GraphError.isUndeclared : GraphError → Bool
  | .undeclared _ _ _ => true
  | _ => false

/-- Tag test for missing-static-input items. -/
def GraphError.isMissingStatic : GraphError → Bool
  | .missing_static _ _ => true
  | _ => false

/-- A semantic file-level violation: a doubly-produced output path, a
consumer lacking the (first) producer of one of its dynamically-created
inputs among its transitive dependencies, or an input that no node produces
and that does not exist on disk. -/
def file_violation (g : NodeGraph) (fs : String → Bool) : Prop :=
  (∃ f, 2 ≤ (producers_of g f).length)
  ∨ (∃ f c, c ∈ consumers_of g f ∧ producers_of g f ≠ []
      ∧ reaches g c ((producers_of g f).headD 0) = false)
  ∨ (∃ f, consumers_of g f ≠ [] ∧ producers_of g f = [] ∧ fs f = false)

theorem mem_firstDedup (l : List String) (x : String) :
    x ∈ firstDedup l ↔ x ∈ l := by
  have key : ∀ (l : List String) (acc : List String),
      x ∈ l.foldl (fun acc x => if x ∈ acc then acc else acc ++ [x]) acc
        ↔ x ∈ acc ∨ x ∈ l := by
    intro l
    induction l with
    | nil => intro acc; simp
    | cons y ys ih =>
      intro acc
      rw [List.foldl_cons]
      by_cases hy : y ∈ acc
      · rw [if_pos hy, ih acc]
        constructor
        · rintro (h | h)
          · exact Or.inl h
          · exact Or.inr (by simp [h])
        · rintro (h | h)
          · exact Or.inl h
          · rcases List.mem_cons.mp h with he | hm
            · exact Or.inl (he ▸ hy)
            · exact Or.inr hm
      · rw [if_neg hy, ih (acc ++ [y])]
        constructor
        · rintro (h | h)
          · rcases List.mem_append.mp h with h | h
            · exact Or.inl h
            · exact Or.inr (by simp at h; simp [h])
          · exact Or.inr (by simp [h])
        · rintro (h | h)
          · exact Or.inl (List.mem_append.mpr (Or.inl h))
          · rcases List.mem_cons.mp h with he | hm
            · exact Or.inl (List.mem_append.mpr (Or.inr (by simp [he])))
            · exact Or.inr hm
  rw [firstDedup, key l []]
  simp

theorem mem_producers_iff (g : NodeGraph) (f : String) (i : Nat) :
    i ∈ producers_of g f ↔ i < g.size ∧ f ∈ (g.info i).output_files := by
  rw [producers_of, List.mem_filter]
  simp

theorem mem_consumers_iff (g : NodeGraph) (f : String) (i : Nat) :
    i ∈ consumers_of g f ↔ i < g.size ∧ f ∈ (g.info i).input_files := by
  rw [consumers_of, List.mem_filter]
  simp

theorem mem_output_filenames (g : NodeGraph) (f : String) (i : Nat)
    (hi : i < g.size) (hf : f ∈ (g.info i).output_files) :
    f ∈ output_filenames g := by
  rw [output_filenames, mem_firstDedup, List.mem_flatMap]
  exact ⟨i, List.mem_range.mpr hi, hf⟩

theorem mem_input_filenames (g : NodeGraph) (f : String) (i : Nat)
    (hi : i < g.size) (hf : f ∈ (g.info i).input_files) :
    f ∈ input_filenames g := by
  rw [input_filenames, mem_firstDedup, List.mem_flatMap]
  exact ⟨i, List.mem_range.mpr hi, hf⟩

theorem two_mem_length_le (l : List Nat) (a b : Nat) (ha : a ∈ l) (hb : b ∈ l)
    (hab : a ≠ b) : 2 ≤ l.length := by
  induction l with
  | nil => cases ha
  | cons x xs ih =>
    rcases List.mem_cons.mp ha with hea | hma
    · rcases List.mem_cons.mp hb with heb | hmb
      · exact absurd (hea.trans heb.symm) hab
      · have := List.length_pos.mpr (List.ne_nil_of_mem hmb)
        simp only [List.length_cons]
        omega
    · have := List.length_pos.mpr (List.ne_nil_of_mem hma)
      simp only [List.length_cons]
      omega

end NodeGraph

namespace NodeGraph

theorem filter_false_all {α : Type} (l : List α) (p : α → Bool)
    (h : ∀ x ∈ l, p x = false) : l.filter p = [] := by
  induction l with
  | nil => rfl
  | cons x xs ih =>
    rw [List.filter_cons]
    have hx := h x (by simp)
    simp only [hx, Bool.false_eq_true, if_false]
    exact ih fun y hy => h y (by simp [hy])

theorem check_output_ne_nil_iff (g : NodeGraph) :
    check_output_files g ≠ [] ↔ ∃ f, 2 ≤ (producers_of g f).length := by
  constructor
  · intro h
    obtain ⟨e, he⟩ := List.exists_mem_of_ne_nil _ h
    obtain ⟨f, hf, hsome⟩ := List.mem_filterMap.mp he
    by_cases h2 : 2 ≤ (producers_of g f).length
    · exact ⟨f, h2⟩
    · rw [if_neg h2] at hsome
      cases hsome
  · rintro ⟨f, h2⟩
    have hne : producers_of g f ≠ [] := by
      intro hc
      rw [hc] at h2
      simp at h2
    obtain ⟨i, hi⟩ := List.exists_mem_of_ne_nil _ hne
    obtain ⟨his, hif⟩ := (mem_producers_iff g f i).mp hi
    apply List.ne_nil_of_mem (a := GraphError.clobbered f (producers_of g f))
    apply List.mem_filterMap.mpr
    exact ⟨f, mem_output_filenames g f i his hif, by rw [if_pos h2]⟩

theorem check_input_ne_nil_iff (g : NodeGraph) (fs : String → Bool) :
    check_input_dependencies g fs ≠ [] ↔
      ((∃ f c, c ∈ consumers_of g f ∧ producers_of g f ≠ []
          ∧ reaches g c ((producers_of g f).headD 0) = false)
        ∨ ∃ f, consumers_of g f ≠ [] ∧ producers_of g f = [] ∧ fs f = false) := by
  constructor
  · intro h
    obtain ⟨e, he⟩ := List.exists_mem_of_ne_nil _ h
    obtain ⟨f, hf, hef⟩ := List.mem_flatMap.mp he
    by_cases hp : producers_of g f ≠ []
    · rw [if_pos hp] at hef
      obtain ⟨c, hc, hsome⟩ := List.mem_filterMap.mp hef
      by_cases hr : reaches g c ((producers_of g f).headD 0) = true
      · rw [if_pos hr] at hsome
        cases hsome
      · rw [Bool.not_eq_true] at hr
        exact Or.inl ⟨f, c, hc, hp, hr⟩
    · rw [if_neg hp] at hef
      rw [not_not] at hp
      by_cases hfs : fs f = false
      · rw [input_filenames, mem_firstDedup, List.mem_flatMap] at hf
        obtain ⟨i, hir, hfi⟩ := hf
        refine Or.inr ⟨f, ?_, hp, hfs⟩
        exact List.ne_nil_of_mem
          ((mem_consumers_iff g f i).mpr ⟨List.mem_range.mp hir, hfi⟩)
      · rw [if_neg hfs] at hef
        cases hef
  · intro h
    rcases h with ⟨f, c, hc, hp, hr⟩ | ⟨f, hcne, hp, hfs⟩
    · obtain ⟨hcs, hcf⟩ := (mem_consumers_iff g f c).mp hc
      apply List.ne_nil_of_mem (a := GraphError.undeclared c f ((producers_of g f).headD 0))
      apply List.mem_flatMap.mpr
      refine ⟨f, mem_input_filenames g f c hcs hcf, ?_⟩
      rw [if_pos hp]
      apply List.mem_filterMap.mpr
      exact ⟨c, hc, by rw [if_neg (by rw [hr]; simp)]⟩
    · obtain ⟨c, hc⟩ := List.exists_mem_of_ne_nil _ hcne
      obtain ⟨hcs, hcf⟩ := (mem_consumers_iff g f c).mp hc
      apply List.ne_nil_of_mem (a := GraphError.missing_static f (consumers_of g f))
      apply List.mem_flatMap.mpr
      refine ⟨f, mem_input_filenames g f c hcs hcf, ?_⟩
      rw [if_neg (by rw [hp]; simp), if_pos hfs]
      simp

theorem output_items_clobbered (g : NodeGraph) :
    ∀ e ∈ check_output_files g, e.isClobbered = true := by
  intro e he
  obtain ⟨f, hf, hsome⟩ := List.mem_filterMap.mp he
  by_cases h2 : 2 ≤ (producers_of g f).length
  · rw [if_pos h2] at hsome
    cases hsome
    rfl
  · rw [if_neg h2] at hsome
    cases hsome

theorem input_items_not_clobbered (g : NodeGraph) (fs : String → Bool) :
    ∀ e ∈ check_input_dependencies g fs, e.isClobbered = false := by
  intro e he
  obtain ⟨f, hf, hef⟩ := List.mem_flatMap.mp he
  by_cases hp : producers_of g f ≠ []
  · rw [if_pos hp] at hef
    obtain ⟨c, hc, hsome⟩ := List.mem_filterMap.mp hef
    by_cases hr : reaches g c ((producers_of g f).headD 0) = true
    · rw [if_pos hr] at hsome
      cases hsome
    · rw [if_neg hr] at hsome
      cases hsome
      rfl
  · rw [if_neg hp] at hef
    by_cases hfs : fs f = false
    · rw [if_pos hfs] at hef
      rw [List.mem_singleton] at hef
      subst hef
      rfl
    · rw [if_neg hfs] at hef
      cases hef

/-- C9: construction diagnostics are capped at `_MAX_ERROR_MESSAGES = 10`
items per category (clobbered outputs, undeclared dynamic dependencies,
missing static inputs), while the check fails — the combined error list is
nonempty and `NodeGraphError` is raised — if and only if at least one
semantic violation of any category exists. -/
theorem claim_C9_capped_but_complete (g : NodeGraph) (fs : String → Bool) :
    ((check_file_dependencies g fs).filter GraphError.isClobbered).length
        ≤ MAX_ERROR_MESSAGES
    ∧ ((check_file_dependencies g fs).filter GraphError.isUndeclared).length
        ≤ MAX_ERROR_MESSAGES
    ∧ ((check_file_dependencies g fs).filter GraphError.isMissingStatic).length
        ≤ MAX_ERROR_MESSAGES
    ∧ (check_file_dependencies g fs ≠ [] ↔ file_violation g fs) := by
  have houtsub : ∀ e ∈ (check_output_files g).take MAX_ERROR_MESSAGES,
      e ∈ check_output_files g := fun e he => List.mem_of_mem_take he
  have hinpsub : ∀ e ∈ (check_input_dependencies g fs).take MAX_ERROR_MESSAGES,
      e ∈ check_input_dependencies g fs := fun e he => List.mem_of_mem_take he
  refine ⟨?_, ?_, ?_, ?_⟩
  · rw [check_file_dependencies, List.filter_append]
    have h2 : ((check_input_dependencies g fs).take MAX_ERROR_MESSAGES).filter
        GraphError.isClobbered = [] := by
      apply filter_false_all
      intro e he
      exact input_items_not_clobbered g fs e (hinpsub e he)
    rw [h2, List.length_append]
    have := List.length_filter_le GraphError.isClobbered
      ((check_output_files g).take MAX_ERROR_MESSAGES)
    have := List.length_take_le MAX_ERROR_MESSAGES (check_output_files g)
    simp only [List.length_nil]
    omega
  · rw [check_file_dependencies, List.filter_append]
    have h1 : ((check_output_files g).take MAX_ERROR_MESSAGES).filter
        GraphError.isUndeclared = [] := by
      apply filter_false_all
      intro e he
      have := output_items_clobbered g e (houtsub e he)
      cases e <;> simp_all [GraphError.isClobbered, GraphError.isUndeclared]
    rw [h1, List.length_append]
    have := List.length_filter_le GraphError.isUndeclared
      ((check_input_dependencies g fs).take MAX_ERROR_MESSAGES)
    have := List.length_take_le MAX_ERROR_MESSAGES (check_input_dependencies g fs)
    simp only [List.length_nil]
    omega
  · rw [check_file_dependencies, List.filter_append]
    have h1 : ((check_output_files g).take MAX_ERROR_MESSAGES).filter
        GraphError.isMissingStatic = [] := by
      apply filter_false_all
      intro e he
      have := output_items_clobbered g e (houtsub e he)
      cases e <;> simp_all [GraphError.isClobbered, GraphError.isMissingStatic]
    rw [h1, List.length_append]
    have := List.length_filter_le GraphError.isMissingStatic
      ((check_input_dependencies g fs).take MAX_ERROR_MESSAGES)
    have := List.length_take_le MAX_ERROR_MESSAGES (check_input_dependencies g fs)
    simp only [List.length_nil]
    omega
  · rw [check_file_dependencies]
    have hiff : ((check_output_files g).take MAX_ERROR_MESSAGES
          ++ (check_input_dependencies g fs).take MAX_ERROR_MESSAGES) ≠ []
        ↔ check_output_files g ≠ [] ∨ check_input_dependencies g fs ≠ [] := by
      rw [Ne, List.append_eq_nil, List.take_eq_nil_iff, List.take_eq_nil_iff]
      rw [show (MAX_ERROR_MESSAGES = 0) = False from by simp [MAX_ERROR_MESSAGES]]
      tauto
    rw [hiff, check_output_ne_nil_iff, check_input_ne_nil_iff]
    unfold file_violation
    exact Iff.rfl

/-- Two nodes both declaring output "x.bam" (Scenario 5). -/
def gTwo : NodeGraph where
  nodes := [{ output_files := ["x.bam"] }, { output_files := ["x.bam"] }]
  wf := by decide

/-- Twenty-two nodes clobbering eleven distinct output paths pairwise — more
clobbered paths than the `_MAX_ERROR_MESSAGES` cap. -/
def gClobber : NodeGraph where
  nodes := [{ output_files := ["f0"] },
    { output_files := ["f0"] },
    { output_files := ["f1"] },
    { output_files := ["f1"] },
    { output_files := ["f2"] },
    { output_files := ["f2"] },
    { output_files := ["f3"] },
    { output_files := ["f3"] },
    { output_files := ["f4"] },
    { output_files := ["f4"] },
    { output_files := ["f5"] },
    { output_files := ["f5"] },
    { output_files := ["f6"] },
    { output_files := ["f6"] },
    { output_files := ["f7"] },
    { output_files := ["f7"] },
    { output_files := ["f8"] },
    { output_files := ["f8"] },
    { output_files := ["f9"] },
    { output_files := ["f9"] },
    { output_files := ["f10"] },
    { output_files := ["f10"] }]
  wf := by decide

/-- C5 counterexample: in `gClobber`, nodes 20 and 21 both declare output
"f10"; construction does fail, but since eleven paths are clobbered and only
the first ten clobber diagnostics survive `zip(range(10), ...)`, no error
item reports the clobbered path "f10" — the error does NOT report each
offending node and clobbered path. -/
theorem claim_C5_counterexample :
    (20 : Nat) ≠ 21
    ∧ "f10" ∈ (gClobber.info 20).output_files
    ∧ "f10" ∈ (gClobber.info 21).output_files
    ∧ check_file_dependencies gClobber (fun _ => true) ≠ []
    ∧ (check_file_dependencies gClobber (fun _ => true)).all
        (fun e => match e with
          | .clobbered f _ => decide (f ≠ "f10")
          | _ => true) = true := by decide

/-- C5 (amended): whenever two distinct tracked nodes declare the same output
path, construction fails before any execution; and provided the number of
clobber diagnostics does not exceed the 10-item cap, the raised error
contains an item reporting that path together with every node producing it
(including both offenders). -/
theorem claim_C5_clobbered_output_fails (g : NodeGraph) (fs : String → Bool)
    (a b : Nat) (f : String) (ha : a < g.size) (hb : b < g.size) (hab : a ≠ b)
    (hfa : f ∈ (g.info a).output_files) (hfb : f ∈ (g.info b).output_files)
    (hcap : (check_output_files g).length ≤ MAX_ERROR_MESSAGES) :
    check_file_dependencies g fs ≠ []
    ∧ GraphError.clobbered f (producers_of g f) ∈ check_file_dependencies g fs
    ∧ a ∈ producers_of g f ∧ b ∈ producers_of g f := by
  have hpa : a ∈ producers_of g f := (mem_producers_iff g f a).mpr ⟨ha, hfa⟩
  have hpb : b ∈ producers_of g f := (mem_producers_iff g f b).mpr ⟨hb, hfb⟩
  have h2 : 2 ≤ (producers_of g f).length := two_mem_length_le _ a b hpa hpb hab
  have hmem : GraphError.clobbered f (producers_of g f) ∈ check_output_files g := by
    apply List.mem_filterMap.mpr
    exact ⟨f, mem_output_filenames g f a ha hfa, by rw [if_pos h2]⟩
  have hmem2 : GraphError.clobbered f (producers_of g f)
      ∈ check_file_dependencies g fs := by
    rw [check_file_dependencies, List.take_of_length_le hcap]
    exact List.mem_append.mpr (Or.inl hmem)
  exact ⟨List.ne_nil_of_mem hmem2, hmem2, hpa, hpb⟩

/-- Witness for the amended C5 at a concrete input: the two-node "x.bam"
clobber of Scenario 5. -/
theorem claim_C5_witness :
    check_file_dependencies gTwo (fun _ => true) ≠ []
    ∧ GraphError.clobbered "x.bam" (producers_of gTwo "x.bam")
        ∈ check_file_dependencies gTwo (fun _ => true)
    ∧ (0 : Nat) ∈ producers_of gTwo "x.bam" ∧ (1 : Nat) ∈ producers_of gTwo "x.bam" :=
  claim_C5_clobbered_output_fails gTwo (fun _ => true) 0 1 "x.bam"
    (by decide) (by decide) (by decide) (by decide) (by decide) (by decide)

end NodeGraph

namespace NodeGraph

/-- A single node consuming "in.txt", which no node produces. -/
def gMissing : NodeGraph where
  nodes := [{ input_files := ["in.txt"] }]
  wf := by decide

/-- Producer/consumer pair with no declared dependency: node 0 creates
"d.txt", node 1 consumes it without depending on node 0. -/
def gUndecl : NodeGraph where
  nodes := [{ output_files := ["d.txt"] }, { input_files := ["d.txt"] }]
  wf := by decide

/-- C8 counterexample: "in.txt" is absent from disk and produced by no
node; construction does fail, but with the missing-static-file diagnostic,
not the claimed 'undeclared dynamic dependency' error — no undeclared item
occurs at all. -/
theorem claim_C8_counterexample :
    check_file_dependencies gMissing (fun _ => false) ≠ []
    ∧ GraphError.missing_static "in.txt" (consumers_of gMissing "in.txt")
        ∈ check_file_dependencies gMissing (fun _ => false)
    ∧ (check_file_dependencies gMissing (fun _ => false)).all
        (fun e => !e.isUndeclared) = true := by decide

/-- C8 (amended): construction's input check distinguishes two cases. If a
consumed path has no producer and is absent from disk, construction fails
and the error list carries a missing-static-file item naming the path and
its consumers. If the path has at least one producer, then for every
consumer that does not transitively depend on the first producer in node
order, construction fails with an undeclared-dynamic-dependency item for
that consumer — regardless of whether the file exists on disk. Both
memberships assume the input diagnostics fit under the 10-item cap. -/
theorem claim_C8_input_checks (g : NodeGraph) (fs : String → Bool)
    (hcap : (check_input_dependencies g fs).length ≤ MAX_ERROR_MESSAGES) :
    (∀ f c, c < g.size → f ∈ (g.info c).input_files → producers_of g f = [] →
        fs f = false →
        check_file_dependencies g fs ≠ []
        ∧ GraphError.missing_static f (consumers_of g f)
            ∈ check_file_dependencies g fs
        ∧ c ∈ consumers_of g f)
    ∧ (∀ f c, c < g.size → f ∈ (g.info c).input_files →
        producers_of g f ≠ [] →
        reaches g c ((producers_of g f).headD 0) = false →
        check_file_dependencies g fs ≠ []
        ∧ GraphError.undeclared c f ((producers_of g f).headD 0)
            ∈ check_file_dependencies g fs) := by
  have hlift : ∀ e, e ∈ check_input_dependencies g fs →
      e ∈ check_file_dependencies g fs := by
    intro e he
    rw [check_file_dependencies, List.take_of_length_le hcap]
    exact List.mem_append.mpr (Or.inr he)
  constructor
  · intro f c hc hfc hp hfs
    have hcm : c ∈ consumers_of g f := (mem_consumers_iff g f c).mpr ⟨hc, hfc⟩
    have hmem : GraphError.missing_static f (consumers_of g f)
        ∈ check_input_dependencies g fs := by
      apply List.mem_flatMap.mpr
      refine ⟨f, mem_input_filenames g f c hc hfc, ?_⟩
      rw [if_neg (by simp [hp]), if_pos hfs]
      simp
    exact ⟨List.ne_nil_of_mem (hlift _ hmem), hlift _ hmem, hcm⟩
  · intro f c hc hfc hp hr
    have hcm : c ∈ consumers_of g f := (mem_consumers_iff g f c).mpr ⟨hc, hfc⟩
    have hmem : GraphError.undeclared c f ((producers_of g f).headD 0)
        ∈ check_input_dependencies g fs := by
      apply List.mem_flatMap.mpr
      refine ⟨f, mem_input_filenames g f c hc hfc, ?_⟩
      rw [if_pos hp]
      apply List.mem_filterMap.mpr
      exact ⟨c, hcm, by rw [if_neg (by rw [hr]; simp)]⟩
    exact ⟨List.ne_nil_of_mem (hlift _ hmem), hlift _ hmem⟩

/-- Witness for the amended C8 at concrete inputs: the missing-static case
on `gMissing` and the undeclared-dynamic case on `gUndecl`. -/
theorem claim_C8_witness :
    (check_file_dependencies gMissing (fun _ => false) ≠ []
      ∧ GraphError.missing_static "in.txt" (consumers_of gMissing "in.txt")
          ∈ check_file_dependencies gMissing (fun _ => false)
      ∧ (0 : Nat) ∈ consumers_of gMissing "in.txt")
    ∧ (check_file_dependencies gUndecl (fun _ => true) ≠ []
      ∧ GraphError.undeclared 1 "d.txt" ((producers_of gUndecl "d.txt").headD 0)
          ∈ check_file_dependencies gUndecl (fun _ => true)) :=
  ⟨(claim_C8_input_checks gMissing (fun _ => false) (by decide)).1
      "in.txt" 0 (by decide) (by decide) (by decide) (by decide),
   (claim_C8_input_checks gUndecl (fun _ => true) (by decide)).2
      "d.txt" 1 (by decide) (by decide) (by decide) (by decide)⟩

end NodeGraph
